import Mathlib

/-!
Verification of the LexAI-Scholar document chunking and retrieval pipeline.

Shallow embedding of `backend/pdf_service.py` (text cleaning, paragraph
splitting, chunking with overlap, hard splitting of large paragraphs) and
`backend/vector_service_openai.py` (chunk id generation, storage, similarity
search, deletion), plus the relevant call sites in `backend/main.py`.

Text is modelled as `List Char`; character offsets are `Nat`; similarity
scores are `ℚ`.  Python string slices `s[a:b]` (which clamp out-of-range
indices) are modelled with `List.drop`/`List.take`.  Loops whose progress
depends on arithmetic (the hard-split loop) are modelled with an explicit
fuel parameter set to the input length at the call site; the fuel is proved
sufficient for the configured `chunk_overlap < chunk_size`.
-/

namespace LexAI

/-- Whitespace characters as recognised by Python `str.strip()` and the
regex class `\s` (ASCII range). -/
def isWsChar (c : Char) : Bool :=
  c = ' ' || c = '\t' || c = '\n' || c = '\r' || c = '\x0b' || c = '\x0c'

/-- Python `str.strip()`: drop whitespace from both ends. -/
def strip (s : List Char) : List Char :=
  ((s.dropWhile isWsChar).reverse.dropWhile isWsChar).reverse

/-- `re.sub(r'\n{3,}', '\n\n', text)`: helper emitting a pending run of
newlines, collapsing runs of three or more to exactly two. -/
def emitNl (n : Nat) : List Char :=
  if 3 ≤ n then ['\n', '\n'] else List.replicate n '\n'

/-- Scanner for `re.sub(r'\n{3,}', '\n\n', text)`; `n` counts pending
newlines. -/
def collapseNlGo (n : Nat) : List Char → List Char
  | [] => emitNl n
  | c :: rest =>
    if c = '\n' then collapseNlGo (n + 1) rest
    else emitNl n ++ c :: collapseNlGo 0 rest

/-- `re.sub(r'\n{3,}', '\n\n', text)` from `PDFProcessor._clean_text`. -/
def collapseNewlines (s : List Char) : List Char :=
  collapseNlGo 0 s

/-- Helper emitting a pending run of spaces, collapsing runs of two or
more to one (`re.sub(r' {2,}', ' ', text)`). -/
def emitSp (n : Nat) : List Char :=
  if 2 ≤ n then [' '] else List.replicate n ' '

/-- Scanner for `re.sub(r' {2,}', ' ', text)`; `n` counts pending spaces. -/
def collapseSpGo (n : Nat) : List Char → List Char
  | [] => emitSp n
  | c :: rest =>
    if c = ' ' then collapseSpGo (n + 1) rest
    else emitSp n ++ c :: collapseSpGo 0 rest

/-- `re.sub(r' {2,}', ' ', text)` from `PDFProcessor._clean_text`. -/
def collapseSpaces (s : List Char) : List Char :=
  collapseSpGo 0 s

/-- Python `text.split('\n')`: split at every newline, keeping empty
pieces. -/
def splitNl : List Char → List (List Char)
  | [] => [[]]
  | c :: rest =>
    if c = '\n' then [] :: splitNl rest
    else
      match splitNl rest with
      | [] => [[c]]
      | l :: ls => (c :: l) :: ls

/-- Python `'\n'.join(lines)`. -/
def joinNl : List (List Char) → List Char
  | [] => []
  | [l] => l
  | l :: ls => l ++ '\n' :: joinNl ls

/-- `PDFProcessor._clean_text`: collapse newline runs of length ≥ 3 to two,
collapse space runs of length ≥ 2 to one, then strip every line. -/
def cleanText (s : List Char) : List Char :=
  joinNl (((splitNl (collapseSpaces (collapseNewlines s))).map strip))

/-- Scanner for `re.split(r'\n\n+', text)`: fuel-indexed (fuel = remaining
input length is always sufficient since every step consumes input). -/
def splitParasGo : Nat → List Char → List (List Char)
  | 0, _ => [[]]
  | _ + 1, [] => [[]]
  | fuel + 1, c :: rest =>
    if c = '\n' then
      match rest with
      | '\n' :: rest2 => [] :: splitParasGo fuel (rest2.dropWhile (· = '\n'))
      | _ =>
        match splitParasGo fuel rest with
        | [] => [[c]]
        | l :: ls => (c :: l) :: ls
    else
      match splitParasGo fuel rest with
      | [] => [[c]]
      | l :: ls => (c :: l) :: ls

/-- `PDFProcessor._split_into_paragraphs`: split on blank-line runs, strip
each paragraph, drop empty paragraphs. -/
def splitIntoParagraphs (s : List Char) : List (List Char) :=
  ((splitParasGo (s.length + 1) s).map strip).filter (fun p => p ≠ [])

/-- Sentence-ending punctuation of the regex `[.!?]\s+`. -/
def isSentPunct (c : Char) : Bool :=
  c = '.' || c = '!' || c = '?'

/-- State of the scanner for `re.finditer(r'[.!?]\s+', search_text)`:
`plain` = scanning, `punct` = just saw `[.!?]`, `ws` = inside the
whitespace run following `[.!?]`. -/
inductive SEState where
  | plain : SEState
  | punct : SEState
  | ws : SEState
deriving DecidableEq

/-- Scanner returning the `match.end()` positions of all non-overlapping
matches of `[.!?]\s+`, offset by the running position `pos`. -/
def sentEndsGo (st : SEState) (pos : Nat) : List Char → List Nat
  | [] => if st = SEState.ws then [pos] else []
  | c :: rest =>
    match st with
    | SEState.plain =>
      if isSentPunct c then sentEndsGo SEState.punct (pos + 1) rest
      else sentEndsGo SEState.plain (pos + 1) rest
    | SEState.punct =>
      if isWsChar c then sentEndsGo SEState.ws (pos + 1) rest
      else if isSentPunct c then sentEndsGo SEState.punct (pos + 1) rest
      else sentEndsGo SEState.plain (pos + 1) rest
    | SEState.ws =>
      if isWsChar c then sentEndsGo SEState.ws (pos + 1) rest
      else if isSentPunct c then pos :: sentEndsGo SEState.punct (pos + 1) rest
      else pos :: sentEndsGo SEState.plain (pos + 1) rest

/-- `PDFProcessor._find_sentence_boundary(text, start, end)`. -/
def findSentenceBoundary (text : List Char) (start end_ : Nat) : Nat :=
  if start ≥ end_ ∨ start ≥ text.length then end_
  else
    let searchText := (text.drop start).take (min end_ text.length - start)
    let ends := (sentEndsGo SEState.plain 0 searchText).map (start + ·)
    match ends.getLast? with
    | some e => e
    | none => min end_ text.length

/-- Document-level metadata copied into every chunk
(`PDFProcessor._create_chunk`). -/
structure Meta where
  filename : List Char
  title : Option (List Char)
  author : Option (List Char)
  page_count : Nat
deriving DecidableEq, Repr

/-- A chunk as built by `PDFProcessor._create_chunk`. -/
structure Chunk where
  chunk_id : Nat
  text : List Char
  start_char : Nat
  end_char : Nat
  chunk_length : Nat
  filename : List Char
  title : Option (List Char)
  author : Option (List Char)
  page_count : Nat
deriving DecidableEq, Repr

/-- `PDFProcessor._create_chunk`. -/
def createChunk (text : List Char) (chunk_id start end_ : Nat) (md : Meta) : Chunk :=
  ⟨chunk_id, text, start, end_, text.length, md.filename, md.title, md.author, md.page_count⟩

/-- The chunk end position computed by one iteration of the loop in
`PDFProcessor._split_large_paragraph`: target `start + chunk_size`,
extended to the last sentence boundary within a 200-character look-ahead
when the target falls inside the paragraph. -/
def splitChunkEnd (cs : Nat) (para : List Char) (start : Nat) : Nat :=
  let e0 := start + cs
  if e0 < para.length then
    let sb := findSentenceBoundary para e0 (min (e0 + 200) para.length)
    if e0 < sb then sb else e0
  else e0

/-- The loop of `PDFProcessor._split_large_paragraph`, with explicit fuel.
Each iteration slices `para[start:end]`, strips it, emits it when
non-empty, and advances `start` to `end - chunk_overlap`. -/
def splitLargeGo (cs ov : Nat) (para : List Char) (start_pos : Nat) (md : Meta) :
    Nat → Nat → Nat → List Chunk
  | 0, _, _ => []
  | fuel + 1, start, cid =>
    if start < para.length then
      let e := splitChunkEnd cs para start
      let ctext := strip ((para.drop start).take (e - start))
      if ctext ≠ [] then
        createChunk ctext cid (start_pos + start) (start_pos + e) md ::
          splitLargeGo cs ov para start_pos md fuel (e - ov) (cid + 1)
      else
        splitLargeGo cs ov para start_pos md fuel (e - ov) cid
    else []

/-- `PDFProcessor._split_large_paragraph(para, start_pos, metadata,
start_chunk_id)`.  Fuel `para.length` is sufficient whenever
`chunk_overlap < chunk_size` (the configured 300 < 1500); see
`splitLargeGo_fuel_sufficient`. -/
def splitLargeParagraph (cs ov : Nat) (para : List Char) (start_pos : Nat)
    (md : Meta) (start_chunk_id : Nat) : List Chunk :=
  splitLargeGo cs ov para start_pos md para.length 0 start_chunk_id

/-- The accumulation state of the loop in `PDFProcessor.chunk_text`. -/
structure ChunkState where
  chunks : List Chunk
  chunk_id : Nat
  current_chunk : List Char
  current_start : Nat
deriving Repr

/-- `current_chunk[-chunk_overlap:] if len(current_chunk) > chunk_overlap
else current_chunk` — note that Python `s[-0:]` is the whole string. -/
def overlapOf (ov : Nat) (s : List Char) : List Char :=
  if s.length > ov then (if ov = 0 then s else s.drop (s.length - ov)) else s

/-- One iteration of the `for para in paragraphs` loop in
`PDFProcessor.chunk_text`. -/
def chunkStep (cs ov : Nat) (md : Meta) (st : ChunkState) (para : List Char) :
    ChunkState :=
  if st.current_chunk.length + para.length > cs then
    if strip st.current_chunk ≠ [] then
      let emitted := createChunk (strip st.current_chunk) st.chunk_id
        st.current_start (st.current_start + st.current_chunk.length) md
      let overlapText := overlapOf ov st.current_chunk
      let newChunk := overlapText ++ ' ' :: para
      let newStart := st.current_start + newChunk.length - overlapText.length - para.length
      ⟨st.chunks ++ [emitted], st.chunk_id + 1, newChunk, newStart⟩
    else
      if para.length > cs then
        let subs := splitLargeParagraph cs ov para st.current_start md st.chunk_id
        ⟨st.chunks ++ subs, st.chunk_id + subs.length, [], st.current_start + para.length⟩
      else
        ⟨st.chunks, st.chunk_id, para, st.current_start⟩
  else
    if st.current_chunk ≠ [] then
      ⟨st.chunks, st.chunk_id, st.current_chunk ++ ' ' :: para, st.current_start⟩
    else
      ⟨st.chunks, st.chunk_id, para, st.current_start⟩

/-- The final emission after the paragraph loop of `chunk_text`
(`if current_chunk.strip(): chunks.append(...)`). -/
def finalizeChunks (md : Meta) (st : ChunkState) : List Chunk :=
  if strip st.current_chunk ≠ [] then
    st.chunks ++ [createChunk (strip st.current_chunk) st.chunk_id
      st.current_start (st.current_start + st.current_chunk.length) md]
  else st.chunks

/-- `PDFProcessor.chunk_text(text, metadata)` with chunk size `cs` and
overlap `ov` (configured to 1500 and 300 in `PDFProcessor.__init__`). -/
def chunkText (cs ov : Nat) (text : List Char) (md : Meta) : List Chunk :=
  if text = [] then []
  else
    finalizeChunks md
      ((splitIntoParagraphs (cleanText text)).foldl (chunkStep cs ov md) ⟨[], 0, [], 0⟩)

/-- Python slice `text[a:b]` (clamping, empty when `b ≤ a`). -/
def slice (text : List Char) (a b : Nat) : List Char :=
  (text.drop a).take (b - a)

/-- Concatenation of the `[start_char, end_char)` spans of the non-first
chunks, each with its first `ov` characters (the designed overlap) removed. -/
def reconTail (text : List Char) (ov : Nat) : List Chunk → List Char
  | [] => []
  | c :: rest => slice text (c.start_char + ov) c.end_char ++ reconTail text ov rest

/-- Concatenation of all chunks' `[start_char, end_char)` spans after
removing the `ov`-character overlapping prefix of each non-first chunk
(the reconstruction described in the specification). -/
def reconstruct (text : List Char) (ov : Nat) : List Chunk → List Char
  | [] => []
  | c :: rest => slice text c.start_char c.end_char ++ reconTail text ov rest

/-! ### MD5 (used by `VectorService._generate_chunk_id`) -/

/-- Bitwise AND over `k` low bits. -/
def andBits : Nat → Nat → Nat → Nat
  | 0, _, _ => 0
  | k + 1, a, b => (a % 2) * (b % 2) + 2 * andBits k (a / 2) (b / 2)

/-- Bitwise OR over `k` low bits. -/
def orBits : Nat → Nat → Nat → Nat
  | 0, _, _ => 0
  | k + 1, a, b => (a % 2 + b % 2 - (a % 2) * (b % 2)) + 2 * orBits k (a / 2) (b / 2)

/-- Bitwise XOR over `k` low bits. -/
def xorBits : Nat → Nat → Nat → Nat
  | 0, _, _ => 0
  | k + 1, a, b => (a % 2 + b % 2) % 2 + 2 * xorBits k (a / 2) (b / 2)

/-- 32-bit bitwise AND. -/
def b32and (a b : Nat) : Nat := andBits 32 a b

/-- 32-bit bitwise OR. -/
def b32or (a b : Nat) : Nat := orBits 32 a b

/-- 32-bit bitwise XOR. -/
def b32xor (a b : Nat) : Nat := xorBits 32 a b

/-- 32-bit bitwise NOT. -/
def b32not (a : Nat) : Nat := 4294967295 - a % 4294967296

/-- 32-bit rotate left. -/
def rotl32 (x s : Nat) : Nat := (x * 2 ^ s + x % 4294967296 / 2 ^ (32 - s)) % 4294967296

/-- The MD5 sine-derived constant table. -/
def md5K : List Nat :=
  [3614090360, 3905402710, 606105819, 3250441966, 4118548399, 1200080426, 2821735955, 4249261313,
   1770035416, 2336552879, 4294925233, 2304563134, 1804603682, 4254626195, 2792965006, 1236535329,
   4129170786, 3225465664, 643717713, 3921069994, 3593408605, 38016083, 3634488961, 3889429448,
   568446438, 3275163606, 4107603335, 1163531501, 2850285829, 4243563512, 1735328473, 2368359562,
   4294588738, 2272392833, 1839030562, 4259657740, 2763975236, 1272893353, 4139469664, 3200236656,
   681279174, 3936430074, 3572445317, 76029189, 3654602809, 3873151461, 530742520, 3299628645,
   4096336452, 1126891415, 2878612391, 4237533241, 1700485571, 2399980690, 4293915773, 2240044497,
   1873313359, 4264355552, 2734768916, 1309151649, 4149444226, 3174756917, 718787259, 3951481745]

/-- The MD5 per-round rotation amounts. -/
def md5S : List Nat :=
  [7, 12, 17, 22, 7, 12, 17, 22, 7, 12, 17, 22, 7, 12, 17, 22,
   5, 9, 14, 20, 5, 9, 14, 20, 5, 9, 14, 20, 5, 9, 14, 20,
   4, 11, 16, 23, 4, 11, 16, 23, 4, 11, 16, 23, 4, 11, 16, 23,
   6, 10, 15, 21, 6, 10, 15, 21, 6, 10, 15, 21, 6, 10, 15, 21]

/-- One MD5 round applied to state `(a, b, c, d)` with message words `m`. -/
def md5Round (m : List Nat) (st : Nat × Nat × Nat × Nat) (i : Nat) :
    Nat × Nat × Nat × Nat :=
  let a := st.1
  let b := st.2.1
  let c := st.2.2.1
  let d := st.2.2.2
  let f :=
    if i < 16 then b32or (b32and b c) (b32and (b32not b) d)
    else if i < 32 then b32or (b32and d b) (b32and (b32not d) c)
    else if i < 48 then b32xor b (b32xor c d)
    else b32xor c (b32or b (b32not d))
  let g :=
    if i < 16 then i
    else if i < 32 then (5 * i + 1) % 16
    else if i < 48 then (3 * i + 5) % 16
    else (7 * i) % 16
  let v := (f + a + md5K.getD i 0 + m.getD g 0) % 4294967296
  let b2 := (b + rotl32 v (md5S.getD i 0)) % 4294967296
  (d, b2, b, c)

/-- Little-endian byte rendering of `n` into `k` bytes. -/
def leBytes : Nat → Nat → List Nat
  | 0, _ => []
  | k + 1, n => n % 256 :: leBytes k (n / 256)

/-- Decode 16 little-endian 32-bit words from a 64-byte block. -/
def md5Words (block : List Nat) : List Nat :=
  (List.range 16).map fun g =>
    block.getD (4 * g) 0 + 256 * block.getD (4 * g + 1) 0 +
      65536 * block.getD (4 * g + 2) 0 + 16777216 * block.getD (4 * g + 3) 0

/-- Split a byte list into 64-byte blocks (fuel-indexed). -/
def blocks64 : Nat → List Nat → List (List Nat)
  | 0, _ => []
  | _ + 1, [] => []
  | fuel + 1, l => l.take 64 :: blocks64 fuel (l.drop 64)

/-- Process one 64-byte block. -/
def md5Block (st : Nat × Nat × Nat × Nat) (block : List Nat) :
    Nat × Nat × Nat × Nat :=
  let m := md5Words block
  let r := (List.range 64).foldl (md5Round m) st
  ((st.1 + r.1) % 4294967296, (st.2.1 + r.2.1) % 4294967296,
   (st.2.2.1 + r.2.2.1) % 4294967296, (st.2.2.2 + r.2.2.2) % 4294967296)

/-- MD5 padding: append `0x80`, zero-pad to 56 mod 64, append the 64-bit
little-endian bit length. -/
def md5Pad (msg : List Nat) : List Nat :=
  let padLen := (119 - msg.length % 64) % 64
  msg ++ [128] ++ List.replicate padLen 0 ++ leBytes 8 (8 * msg.length % 18446744073709551616)

/-- MD5 digest (16 bytes) of a byte string. -/
def md5Bytes (msg : List Nat) : List Nat :=
  let padded := md5Pad msg
  let st := (blocks64 (padded.length + 1) padded).foldl md5Block
    (1732584193, 4023233417, 2562383102, 271733878)
  leBytes 4 st.1 ++ leBytes 4 st.2.1 ++ leBytes 4 st.2.2.1 ++ leBytes 4 st.2.2.2

/-- Lower-case hex digit. -/
def hexDigit (n : Nat) : Char :=
  if n < 10 then Char.ofNat (48 + n) else Char.ofNat (87 + n)

/-- `hashlib.md5(...).hexdigest()`: 32 lower-case hex characters. -/
def md5Hex (msg : List Nat) : List Char :=
  (md5Bytes msg).foldr (fun b acc => hexDigit (b / 16) :: hexDigit (b % 16) :: acc) []

/-! ### `vector_service_openai.py` -/

/-- Decimal digit character. -/
def decDigit (n : Nat) : Char := Char.ofNat (48 + n)

/-- Decimal rendering of a natural number (fuel-indexed). -/
def natToDecGo : Nat → Nat → List Char
  | 0, _ => []
  | fuel + 1, n =>
    if n < 10 then [decDigit n]
    else natToDecGo fuel (n / 10) ++ [decDigit (n % 10)]

/-- Python `str(n)` for a non-negative integer. -/
def natToDec (n : Nat) : List Char := natToDecGo (n + 1) n

/-- `VectorService._generate_chunk_id(user_id, filename, chunk_id)`: the
MD5 hex digest of `f"{user_id}_{filename}_{chunk_id}_{int(time.time())}"`.
The timestamp `int(time.time())` is passed explicitly as `t`.  Characters
are encoded via their code points (faithful for ASCII inputs). -/
def generateChunkId (user_id filename : List Char) (chunk_id t : Nat) : List Char :=
  md5Hex ((user_id ++ '_' :: filename ++ '_' :: natToDec chunk_id ++ '_' :: natToDec t).map Char.toNat)

/-- Vector metadata as built in
`VectorService.store_document_chunks` (`vector_service_openai.py`). -/
structure VecMeta where
  user_id : List Char
  document_id : List Char
  filename : List Char
  title : Option (List Char)
  author : Option (List Char)
  chunk_id : Nat
  text : List Char
  page_number : Option Nat
  start_char : Nat
  end_char : Nat
deriving DecidableEq, Repr

/-- A vector as upserted into the index. -/
structure Vec where
  id : List Char
  values : List ℚ
  metadata : VecMeta
deriving DecidableEq, Repr

/-- Modelled from the spec: the external vector index (Pinecone) is not in
the repository; per §4.4 its upsert is an "idempotent insert-or-replace
keyed by vector id".  One upsert: replace the entry with the same id, or
append. -/
def upsertOne (idx : List Vec) (v : Vec) : List Vec :=
  if idx.any (fun e => e.id = v.id) then
    idx.map (fun e => if e.id = v.id then v else e)
  else idx ++ [v]

/-- Upsert of a whole batch (`self.index.upsert(vectors=batch)`). -/
def upsertBatch (idx : List Vec) (vs : List Vec) : List Vec :=
  vs.foldl upsertOne idx

/-- Split a list into batches of `n` (fuel-indexed), as done by
`for i in range(0, len(vectors), batch_size)`. -/
def batchesOf (n : Nat) : Nat → List Vec → List (List Vec)
  | 0, _ => []
  | _ + 1, [] => []
  | fuel + 1, l => l.take n :: batchesOf n fuel (l.drop n)

/-- The result dict of `store_document_chunks`: `{"success": True, ...}`
or `{"success": False, "error": ...}`. -/
inductive StoreResult where
  | ok (vectors_stored : Nat) (document_id : Option (List Char))
  | err (msg : List Char)
deriving DecidableEq, Repr

/-- Observable outcome of `store_document_chunks`: the returned result,
the number of embedding-API calls issued, and the index state. -/
structure StoreOutcome where
  result : StoreResult
  embed_calls : Nat
  index : List Vec
deriving Repr

/-- The metadata dict built for chunk `c` at enumeration index `i`. -/
def vecMetaOf (user_id : List Char) (document_id : Option (List Char))
    (i : Nat) (c : Chunk) : VecMeta :=
  ⟨user_id, document_id.getD ("unknown".toList), c.filename, c.title, c.author,
    i, c.text.take 1000, none, c.start_char, c.end_char⟩

/-- The vector list built by `store_document_chunks` from chunks zipped
with their embeddings (Python `zip` truncates to the shorter list). -/
def buildVectors (user_id : List Char) (document_id : Option (List Char))
    (t : Nat) (chunks : List Chunk) (embs : List (List ℚ)) : List Vec :=
  (chunks.zip embs).enum.map fun p =>
    ⟨generateChunkId user_id p.2.1.filename p.1 t, p.2.2,
      vecMetaOf user_id document_id p.1 p.2.1⟩

/-- `VectorService.store_document_chunks(chunks, user_id, document_id)`.
The embedding backend is the oracle `embedBatch` (an `.error` models an
exception from the OpenAI call, caught by the surrounding `try` and
returned as `{"success": False, "error": ...}`); `t` is `int(time.time())`
at the moment the ids are generated. -/
def storeDocumentChunks
    (embedBatch : List (List Char) → Except (List Char) (List (List ℚ)))
    (chunks : List Chunk) (user_id : List Char) (document_id : Option (List Char))
    (t : Nat) (idx : List Vec) : StoreOutcome :=
  if chunks = [] then ⟨.err ("No chunks to process".toList), 0, idx⟩
  else
    match embedBatch (chunks.map Chunk.text) with
    | .error e => ⟨.err e, 1, idx⟩
    | .ok embs =>
      let vectors := buildVectors user_id document_id t chunks embs
      let idx2 := (batchesOf 100 (vectors.length + 1) vectors).foldl upsertBatch idx
      ⟨.ok vectors.length document_id, 1, idx2⟩

/-- `stats().total_vectors` (`get_index_stats`): total vector count of the
index. -/
def totalVectors (idx : List Vec) : Nat := idx.length

/-- A match returned by the external index query. -/
structure RawMatch where
  id : List Char
  score : ℚ
  metadata : VecMeta
deriving DecidableEq, Repr

/-- A formatted result dict of `search_similar`
(`vector_service_openai.py` lines 174-187). -/
structure FormattedMatch where
  id : List Char
  score : ℚ
  text : List Char
  filename : List Char
  title : Option (List Char)
  author : Option (List Char)
  chunk_id : Nat
  document_id : List Char
  page_number : Option Nat
deriving DecidableEq, Repr

/-- The formatting of one match in `search_similar`. -/
def formatMatch (m : RawMatch) : FormattedMatch :=
  ⟨m.id, m.score, m.metadata.text, m.metadata.filename, m.metadata.title,
    m.metadata.author, m.metadata.chunk_id, m.metadata.document_id,
    m.metadata.page_number⟩

/-- The metadata filter passed by `search_similar`:
`{"user_id": {"$eq": user_id}}`. -/
def searchSimilarQueryFilter (user_id : List Char) : List (List Char × List Char) :=
  [("user_id".toList, user_id)]

/-- The body of the `try` block of `search_similar`: embed the query,
query the index with the user filter, keep matches with
`score >= min_score`, and format them.  `embed` and `indexQuery` are the
external OpenAI / Pinecone collaborators; `.error` models an exception. -/
def searchSimilarTry
    (embed : List Char → Except (List Char) (List ℚ))
    (indexQuery : List ℚ → Nat → List (List Char × List Char) →
      Except (List Char) (List RawMatch))
    (query user_id : List Char) (top_k : Nat) (min_score : ℚ) :
    Except (List Char) (List FormattedMatch) :=
  match embed query with
  | .error e => .error e
  | .ok emb =>
    match indexQuery emb top_k (searchSimilarQueryFilter user_id) with
    | .error e => .error e
    | .ok ms => .ok ((ms.filter (fun m => min_score ≤ m.score)).map formatMatch)

/-- `VectorService.search_similar` (`vector_service_openai.py`): the `try`
body wrapped in `except Exception: return []` — any failure yields a
normal empty-list return (`.ok []`), not an exception (`.error`). -/
def searchSimilar
    (embed : List Char → Except (List Char) (List ℚ))
    (indexQuery : List ℚ → Nat → List (List Char × List Char) →
      Except (List Char) (List RawMatch))
    (query user_id : List Char) (top_k : Nat) (min_score : ℚ) :
    Except (List Char) (List FormattedMatch) :=
  match searchSimilarTry embed indexQuery query user_id top_k min_score with
  | .ok r => .ok r
  | .error _ => .ok []

/-- The metadata filter passed by `delete_document`:
`{"document_id": {"$eq": document_id}, "user_id": {"$eq": user_id}}`. -/
def deleteDocumentFilter (document_id user_id : List Char) :
    List (List Char × List Char) :=
  [("document_id".toList, document_id), ("user_id".toList, user_id)]

/-- `VectorService.delete_document`: issue the filtered delete; report
`{"success": True}` or `{"success": False, "error": ...}`. -/
def deleteDocument
    (indexDelete : List (List Char × List Char) → Except (List Char) Unit)
    (document_id user_id : List Char) : Bool × Option (List Char) :=
  match indexDelete (deleteDocumentFilter document_id user_id) with
  | .ok _ => (true, none)
  | .error e => (false, some e)

/-- `VectorService.search_by_filter(filter_dict, top_k)`: queries the index
with a zero dummy vector and exactly the caller-supplied filter. -/
def searchByFilter
    (indexQuery : List ℚ → Nat → List (List Char × List Char) →
      Except (List Char) (List RawMatch))
    (filter_dict : List (List Char × List Char)) (top_k : Nat) :
    Bool × List RawMatch :=
  match indexQuery (List.replicate 1536 0) top_k filter_dict with
  | .ok ms => (true, ms)
  | .error _ => (false, [])

/-- The filter built at the `get_document_content` call site in
`main.py` (lines 807-811): `filter_dict={"document_id": document_id}` —
no `user_id` key. -/
def getDocumentContentFilter (document_id : List Char) :
    List (List Char × List Char) :=
  [("document_id".toList, document_id)]

/-- Whether a metadata filter constrains the owner (`user_id`) field. -/
def hasUserIdFilter (f : List (List Char × List Char)) : Bool :=
  f.any (fun kv => kv.1 = "user_id".toList)

/-! ### Spec-modelled re-ranking formula (for stating claim C4) -/

/-- Split on whitespace runs, keeping empty pieces. -/
def splitWs : List Char → List (List Char)
  | [] => [[]]
  | c :: rest =>
    if isWsChar c then [] :: splitWs rest
    else
      match splitWs rest with
      | [] => [[c]]
      | l :: ls => (c :: l) :: ls

/-- Modelled from the spec: case-insensitive word set of a text (§4.5
re-ranking, "lexical word-overlap ratio between the query's word set and
the candidate text's word set"); not present in the source. -/
def specWords (s : List Char) : List (List Char) :=
  ((splitWs (s.map Char.toLower)).filter (fun w => w ≠ [])).dedup

/-- Modelled from the spec: the lexical word-overlap ratio of §4.5; not
present in the source. -/
def specOverlapRatio (query text : List Char) : ℚ :=
  let qw := specWords query
  if qw = [] then 0
  else ((qw.filter (fun w => w ∈ specWords text)).length : ℚ) / (qw.length : ℚ)

/-- Modelled from the spec: the adjusted score of §4.5 / §9,
`min(1.0, score + overlap_ratio*0.1)`; not present in the source. -/
def specAdjustedScore (score : ℚ) (query text : List Char) : ℚ :=
  min 1 (score + specOverlapRatio query text * (1 / 10))

/-! ### Adjacent-pair predicates on character lists -/

/-- `okPairs p s`: every two adjacent characters of `s` satisfy `p`. -/
def okPairs (p : Char → Char → Bool) : List Char → Bool
  | [] => true
  | [_] => true
  | a :: b :: rest => p a b && okPairs p (b :: rest)

/-- No two adjacent spaces (output form of `re.sub(r' {2,}', ' ', ·)`). -/
def noDoubleSpace (s : List Char) : Bool :=
  okPairs (fun a b => !(a = ' ' && b = ' ')) s

/-- No two adjacent whitespace characters. -/
def noAdjWs (s : List Char) : Bool :=
  okPairs (fun a b => !(isWsChar a && isWsChar b)) s

/-- `okTriples s`: no three adjacent newlines. -/
def noTripleNl : List Char → Bool
  | a :: b :: c :: rest => !(a = '\n' && b = '\n' && c = '\n') && noTripleNl (b :: c :: rest)
  | _ => true

/-- Every line of `s` equals its own strip (no leading/trailing
whitespace on any line). -/
def linesStripped (s : List Char) : Bool :=
  (splitNl s).all (fun l => strip l = l)

/-! ### Lemmas about `okPairs` -/

theorem okPairs_cons {p : Char → Char → Bool} {a : Char} {l : List Char} :
    okPairs p (a :: l) = ((match l.head? with
      | some b => p a b
      | none => true) && okPairs p l) := by
  cases l <;> simp [okPairs]

theorem okPairs_tail {p : Char → Char → Bool} {a : Char} {l : List Char}
    (h : okPairs p (a :: l) = true) : okPairs p l = true := by
  rw [okPairs_cons] at h
  exact (Bool.and_eq_true_iff.mp h).2

theorem okPairs_append_right {p : Char → Char → Bool} :
    ∀ {x y : List Char}, okPairs p (x ++ y) = true → okPairs p y = true := by
  intro x
  induction x with
  | nil => intro y h; simpa using h
  | cons a rest ih =>
    intro y h
    exact ih (okPairs_tail (l := rest ++ y) h)

theorem okPairs_append_left {p : Char → Char → Bool} :
    ∀ {x y : List Char}, okPairs p (x ++ y) = true → okPairs p x = true := by
  intro x
  induction x with
  | nil => intro _ _; rfl
  | cons a rest ih =>
    intro y h
    rw [okPairs_cons]
    rw [List.cons_append, okPairs_cons] at h
    rcases Bool.and_eq_true_iff.mp h with ⟨h1, h2⟩
    refine Bool.and_eq_true_iff.mpr ⟨?_, ih h2⟩
    cases rest with
    | nil => rfl
    | cons b r => simpa using h1

theorem okPairs_middle {p : Char → Char → Bool} {x y z : List Char}
    (h : okPairs p (x ++ y ++ z) = true) : okPairs p y = true :=
  okPairs_append_left (okPairs_append_right (x := x) (by simpa using h))

/-- Gluing two `okPairs` lists across a separator character that is
compatible with everything. -/
theorem okPairs_append_sep {p : Char → Char → Bool} {sep : Char}
    (hsep : ∀ c, p c sep = true ∧ p sep c = true) :
    ∀ {x y : List Char}, okPairs p x = true → okPairs p y = true →
      okPairs p (x ++ sep :: y) = true := by
  intro x
  induction x with
  | nil =>
    intro y _ hy
    rw [List.nil_append, okPairs_cons]
    refine Bool.and_eq_true_iff.mpr ⟨?_, hy⟩
    cases y with
    | nil => rfl
    | cons b r => simpa using (hsep b).2
  | cons a rest ih =>
    intro y hx hy
    rw [List.cons_append, okPairs_cons]
    refine Bool.and_eq_true_iff.mpr ⟨?_, ih (okPairs_tail hx) hy⟩
    cases rest with
    | nil => simpa using (hsep a).1
    | cons b r =>
      rw [okPairs_cons] at hx
      simpa using (Bool.and_eq_true_iff.mp hx).1

/-- A length-two `okPairs` list whose pair predicate forbids two
whitespace characters contains a non-whitespace character. -/
theorem exists_not_ws_of_noAdjWs {l : List Char} (h : noAdjWs l = true)
    (hlen : 2 ≤ l.length) : ∃ c ∈ l, isWsChar c = false := by
  match l, hlen with
  | a :: b :: rest, _ =>
    unfold noAdjWs okPairs at h
    rcases Bool.and_eq_true_iff.mp h with ⟨h1, _⟩
    by_cases ha : isWsChar a = true
    · refine ⟨b, by simp, ?_⟩
      cases hb : isWsChar b
      · rfl
      · simp [ha, hb] at h1
    · exact ⟨a, by simp, by simpa using ha⟩

/-! ### Lemmas about `strip` -/

/-- Decomposition: a list is whitespace, then its strip, then whitespace. -/
theorem strip_decomp (l : List Char) :
    l = l.takeWhile isWsChar ++ strip l ++
      ((l.dropWhile isWsChar).reverse.takeWhile isWsChar).reverse := by
  conv_lhs => rw [← List.takeWhile_append_dropWhile (p := isWsChar) (l := l)]
  rw [List.append_assoc]
  congr 1
  set m := l.dropWhile isWsChar with hm
  conv_lhs => rw [← m.reverse_reverse]
  conv_lhs => rw [← List.takeWhile_append_dropWhile (p := isWsChar) (l := m.reverse)]
  rw [List.reverse_append]
  rfl

theorem strip_append_decomp (l : List Char) :
    ∃ a b, l = a ++ strip l ++ b ∧ (∀ c ∈ a, isWsChar c = true) ∧
      (∀ c ∈ b, isWsChar c = true) := by
  refine ⟨l.takeWhile isWsChar,
    ((l.dropWhile isWsChar).reverse.takeWhile isWsChar).reverse,
    strip_decomp l, ?_, ?_⟩
  · intro c hc
    exact List.mem_takeWhile_imp hc
  · intro c hc
    rw [List.mem_reverse] at hc
    exact List.mem_takeWhile_imp hc

theorem mem_of_mem_strip {c : Char} {l : List Char} (h : c ∈ strip l) : c ∈ l := by
  obtain ⟨a, b, hl, -, -⟩ := strip_append_decomp l
  rw [hl]
  simp [h]

theorem strip_length_le (l : List Char) : (strip l).length ≤ l.length := by
  obtain ⟨a, b, hl, -, -⟩ := strip_append_decomp l
  conv_rhs => rw [hl]
  simp
  omega

theorem strip_eq_nil_iff {l : List Char} :
    strip l = [] ↔ ∀ c ∈ l, isWsChar c = true := by
  constructor
  · intro h c hc
    obtain ⟨a, b, hl, ha, hb⟩ := strip_append_decomp l
    rw [hl, h] at hc
    simp at hc
    rcases hc with hc | hc
    · exact ha c hc
    · exact hb c hc
  · intro h
    unfold strip
    rw [List.dropWhile_eq_nil_iff.mpr h]
    rfl

theorem strip_ne_nil_of_mem {c : Char} {l : List Char} (hc : c ∈ l)
    (hws : isWsChar c = false) : strip l ≠ [] := by
  intro h
  rw [strip_eq_nil_iff] at h
  rw [h c hc] at hws
  exact Bool.noConfusion hws

theorem okPairs_strip {p : Char → Char → Bool} {l : List Char}
    (h : okPairs p l = true) : okPairs p (strip l) = true := by
  obtain ⟨a, b, hl, -, -⟩ := strip_append_decomp l
  rw [hl] at h
  exact okPairs_middle h

theorem dropWhile_eq_self_of_head {p : Char → Bool} {l : List Char}
    (h : ∀ c ∈ l.head?, p c = false) : l.dropWhile p = l := by
  cases l with
  | nil => rfl
  | cons a r =>
    rw [List.dropWhile_cons]
    simp at h
    simp [h]

theorem strip_eq_self {l : List Char}
    (hh : ∀ c ∈ l.head?, isWsChar c = false)
    (ht : ∀ c ∈ l.getLast?, isWsChar c = false) : strip l = l := by
  unfold strip
  rw [dropWhile_eq_self_of_head hh]
  rw [dropWhile_eq_self_of_head (by simpa [List.head?_reverse] using ht)]
  exact l.reverse_reverse

theorem head_dropWhile_false {p : Char → Bool} {l : List Char} {c : Char}
    (h : (l.dropWhile p).head? = some c) : p c = false := by
  have := List.head?_dropWhile_not p l
  rw [h] at this
  exact this

theorem strip_last_not_ws {l : List Char} :
    ∀ c ∈ (strip l).getLast?, isWsChar c = false := by
  intro c hc
  rw [Option.mem_def] at hc
  unfold strip at hc
  rw [List.getLast?_reverse] at hc
  exact head_dropWhile_false hc

theorem strip_head_not_ws {l : List Char} :
    ∀ c ∈ (strip l).head?, isWsChar c = false := by
  intro c hc
  rw [Option.mem_def] at hc
  unfold strip at hc
  rw [List.head?_reverse] at hc
  set m := (l.dropWhile isWsChar).reverse with hm
  have hne : m.dropWhile isWsChar ≠ [] := by
    intro h
    rw [h] at hc
    simp at hc
  have h3 : (m.dropWhile isWsChar).getLast? = m.getLast? := by
    conv_rhs => rw [← List.takeWhile_append_dropWhile (p := isWsChar) (l := m)]
    rw [List.getLast?_append]
    cases hx : (m.dropWhile isWsChar).getLast? with
    | none =>
      rw [List.getLast?_eq_none_iff] at hx
      exact absurd hx hne
    | some a => rfl
  rw [h3, hm, List.getLast?_reverse] at hc
  exact head_dropWhile_false hc

theorem strip_idem (l : List Char) : strip (strip l) = strip l :=
  strip_eq_self strip_head_not_ws strip_last_not_ws

/-! ### Lemmas for the cleaner (`_clean_text`) -/

theorem okPairs_short {p : Char → Char → Bool} {l : List Char}
    (h : l.length ≤ 1) : okPairs p l = true := by
  match l, h with
  | [], _ => rfl
  | [a], _ => rfl

theorem emitSp_short (n : Nat) : (emitSp n).length ≤ 1 := by
  unfold emitSp
  split
  · simp
  · rename_i h
    simp
    omega

theorem emitSp_cases (n : Nat) : emitSp n = [] ∨ emitSp n = [' '] := by
  unfold emitSp
  split
  · right; rfl
  · rename_i h
    match n, h with
    | 0, _ => left; rfl
    | 1, _ => right; rfl
    | n + 2, h => exact absurd (by omega) h

theorem spPair_of_ne_space_left {c x : Char} (h : ¬c = ' ') :
    (fun a b => !(a = ' ' && b = ' ')) c x = true := by
  simp [h]

theorem spPair_of_ne_space_right {c x : Char} (h : ¬c = ' ') :
    (fun a b => !(a = ' ' && b = ' ')) x c = true := by
  simp [h]

theorem collapseSpGo_noDoubleSpace :
    ∀ (s : List Char) (n : Nat), noDoubleSpace (collapseSpGo n s) = true := by
  intro s
  induction s with
  | nil =>
    intro n
    exact okPairs_short (emitSp_short n)
  | cons c rest ih =>
    intro n
    unfold collapseSpGo
    split
    · exact ih (n + 1)
    · rename_i hc
      rcases emitSp_cases n with h | h <;> rw [h]
      · rw [List.nil_append]
        unfold noDoubleSpace
        rw [okPairs_cons]
        refine Bool.and_eq_true_iff.mpr ⟨?_, ih 0⟩
        cases hh : (collapseSpGo 0 rest).head? with
        | none => rfl
        | some b => exact spPair_of_ne_space_left hc
      · unfold noDoubleSpace
        rw [List.singleton_append, okPairs_cons]
        refine Bool.and_eq_true_iff.mpr ⟨by simp [hc], ?_⟩
        rw [okPairs_cons]
        refine Bool.and_eq_true_iff.mpr ⟨?_, ih 0⟩
        cases hh : (collapseSpGo 0 rest).head? with
        | none => rfl
        | some b => simp [hc]

theorem collapseSpaces_noDoubleSpace (s : List Char) :
    noDoubleSpace (collapseSpaces s) = true :=
  collapseSpGo_noDoubleSpace s 0

theorem splitNl_ne_nil (s : List Char) : splitNl s ≠ [] := by
  cases s with
  | nil => simp [splitNl]
  | cons c rest =>
    unfold splitNl
    split
    · simp
    · cases h : splitNl rest <;> simp

theorem okPairs_splitNl {p : Char → Char → Bool} :
    ∀ {x : List Char}, okPairs p x = true → ∀ l ∈ splitNl x, okPairs p l = true := by
  intro x
  induction x with
  | nil =>
    intro _ l hl
    simp [splitNl] at hl
    rw [hl]
    rfl
  | cons c rest ih =>
    intro hx l hl
    unfold splitNl at hl
    by_cases hc : c = '\n'
    · rw [if_pos hc] at hl
      rcases List.mem_cons.mp hl with h | h
      · rw [h]; rfl
      · exact ih (okPairs_tail hx) l h
    · rw [if_neg hc] at hl
      cases hrest : splitNl rest with
      | nil => exact absurd hrest (splitNl_ne_nil rest)
      | cons l0 ls =>
        rw [hrest] at hl
        rcases List.mem_cons.mp hl with h | h
        · rw [h, okPairs_cons]
          have hl0 : okPairs p l0 = true :=
            ih (okPairs_tail hx) l0 (by rw [hrest]; simp)
          refine Bool.and_eq_true_iff.mpr ⟨?_, hl0⟩
          cases rest with
          | nil =>
            simp [splitNl] at hrest
            rw [hrest.1]
            rfl
          | cons d r2 =>
            unfold splitNl at hrest
            by_cases hd : d = '\n'
            · rw [if_pos hd] at hrest
              injection hrest with h1 h2
              rw [← h1]
              rfl
            · rw [if_neg hd] at hrest
              cases hr2 : splitNl r2 with
              | nil => exact absurd hr2 (splitNl_ne_nil r2)
              | cons l1 ls1 =>
                rw [hr2] at hrest
                injection hrest with h1 h2
                rw [← h1]
                rw [okPairs_cons] at hx
                simpa using (Bool.and_eq_true_iff.mp hx).1
        · exact ih (okPairs_tail hx) l (by rw [hrest]; simp [h])

theorem nl_not_mem_splitNl :
    ∀ {x : List Char}, ∀ l ∈ splitNl x, '\n' ∉ l := by
  intro x
  induction x with
  | nil =>
    intro l hl
    simp [splitNl] at hl
    simp [hl]
  | cons c rest ih =>
    intro l hl
    unfold splitNl at hl
    by_cases hc : c = '\n'
    · rw [if_pos hc] at hl
      rcases List.mem_cons.mp hl with h | h
      · simp [h]
      · exact ih l h
    · rw [if_neg hc] at hl
      cases hrest : splitNl rest with
      | nil => exact absurd hrest (splitNl_ne_nil rest)
      | cons l0 ls =>
        rw [hrest] at hl
        rcases List.mem_cons.mp hl with h | h
        · rw [h]
          intro hmem
          rcases List.mem_cons.mp hmem with h2 | h2
          · exact hc h2.symm
          · exact ih l0 (by rw [hrest]; simp) h2
        · exact ih l (by rw [hrest]; simp [h])

theorem splitNl_of_no_nl {l : List Char} (h : '\n' ∉ l) : splitNl l = [l] := by
  induction l with
  | nil => rfl
  | cons c rest ih =>
    unfold splitNl
    have hc : ¬c = '\n' := by
      intro hcc
      exact h (by simp [hcc])
    rw [if_neg hc, ih (by intro hm; exact h (by simp [hm]))]

theorem splitNl_append_nl {l t : List Char} (h : '\n' ∉ l) :
    splitNl (l ++ '\n' :: t) = l :: splitNl t := by
  induction l with
  | nil => simp [splitNl]
  | cons c rest ih =>
    have hc : ¬c = '\n' := by
      intro hcc
      exact h (by simp [hcc])
    rw [List.cons_append]
    conv_lhs => rw [splitNl]
    rw [if_neg hc, ih (by intro hm; exact h (by simp [hm]))]

theorem splitNl_joinNl :
    ∀ {ls : List (List Char)}, ls ≠ [] → (∀ l ∈ ls, '\n' ∉ l) →
      splitNl (joinNl ls) = ls := by
  intro ls
  induction ls with
  | nil => intro h _; exact absurd rfl h
  | cons l rest ih =>
    intro _ hnl
    cases rest with
    | nil =>
      show splitNl (joinNl [l]) = [l]
      unfold joinNl
      exact splitNl_of_no_nl (hnl l (by simp))
    | cons l2 rest2 =>
      show splitNl (l ++ '\n' :: joinNl (l2 :: rest2)) = l :: l2 :: rest2
      rw [splitNl_append_nl (hnl l (by simp))]
      rw [ih (by simp) (fun x hx => hnl x (by simp [hx]))]

theorem okPairs_joinNl {p : Char → Char → Bool}
    (hsep : ∀ c, p c '\n' = true ∧ p '\n' c = true) :
    ∀ {ls : List (List Char)}, (∀ l ∈ ls, okPairs p l = true) →
      okPairs p (joinNl ls) = true := by
  intro ls
  induction ls with
  | nil => intro _; rfl
  | cons l rest ih =>
    intro h
    cases rest with
    | nil => exact h l (by simp)
    | cons l2 rest2 =>
      show okPairs p (l ++ '\n' :: joinNl (l2 :: rest2)) = true
      exact okPairs_append_sep hsep (h l (by simp))
        (ih (fun x hx => h x (by simp [hx])))

theorem cleanText_noDoubleSpace (s : List Char) :
    noDoubleSpace (cleanText s) = true := by
  unfold cleanText
  apply okPairs_joinNl (by intro c; constructor <;> simp)
  intro l hl
  rw [List.mem_map] at hl
  obtain ⟨l0, hl0, rfl⟩ := hl
  exact okPairs_strip
    (okPairs_splitNl (collapseSpaces_noDoubleSpace (collapseNewlines s)) l0 hl0)

theorem cleanText_linesStripped (s : List Char) :
    linesStripped (cleanText s) = true := by
  unfold linesStripped cleanText
  set ls := (splitNl (collapseSpaces (collapseNewlines s))).map strip with hls
  have hsplit : splitNl (joinNl ls) = ls := by
    apply splitNl_joinNl
    · rw [hls]
      simp
      exact splitNl_ne_nil _
    · intro l hl
      rw [hls, List.mem_map] at hl
      obtain ⟨l0, hl0, rfl⟩ := hl
      intro hmem
      exact absurd (mem_of_mem_strip hmem) (nl_not_mem_splitNl l0 hl0)
  rw [hsplit, List.all_eq_true]
  intro l hl
  rw [hls, List.mem_map] at hl
  obtain ⟨l0, hl0, rfl⟩ := hl
  simpa using strip_idem l0

/-! ### Lemmas about `slice` -/

theorem slice_zero_length (l : List Char) : slice l 0 l.length = l := by
  unfold slice
  rw [List.drop_zero, Nat.sub_zero, List.take_length]

theorem slice_eq_drop {l : List Char} {a b : Nat} (h : l.length ≤ b) :
    slice l a b = l.drop a := by
  unfold slice
  apply List.take_of_length_le
  rw [List.length_drop]
  omega

theorem slice_eq_nil {l : List Char} {a b : Nat} (h : l.length ≤ a) :
    slice l a b = [] := by
  unfold slice
  rw [List.drop_eq_nil_of_le h]
  exact List.take_eq_nil_of_eq_nil rfl

theorem slice_length_le {l : List Char} {a b : Nat} :
    (slice l a b).length ≤ b - a := by
  unfold slice
  rw [List.length_take]
  exact Nat.min_le_left _ _

theorem slice_glue {l : List Char} {a b : Nat} (hab : a ≤ b) :
    slice l a b ++ slice l b l.length = slice l a l.length := by
  by_cases hbn : b ≤ l.length
  · have h2 : slice l b l.length = l.drop b := by
      unfold slice
      apply List.take_of_length_le
      rw [List.length_drop]
    have h3 : slice l a l.length = l.drop a := by
      unfold slice
      apply List.take_of_length_le
      rw [List.length_drop]
    rw [h2, h3]
    conv_rhs => rw [← List.take_append_drop (b - a) (l.drop a)]
    rw [List.drop_drop]
    have hb2 : a + (b - a) = b := by omega
    rw [hb2]
    rfl
  · rw [slice_eq_drop (by omega), slice_eq_nil (by omega),
      slice_eq_drop (Nat.le_refl _), List.append_nil]

/-- Decomposition of a list around an interior slice. -/
theorem slice_middle {l : List Char} {a b : Nat} (hab : a ≤ b) :
    l = l.take a ++ slice l a b ++ l.drop b := by
  conv_lhs => rw [← List.take_append_drop a l]
  rw [List.append_assoc]
  congr 1
  conv_lhs => rw [← List.take_append_drop (b - a) (l.drop a)]
  rw [List.drop_drop]
  have hb2 : a + (b - a) = b := by omega
  rw [hb2]
  rfl

theorem getLast?_drop {l : List Char} {a : Nat} (h : a < l.length) :
    (l.drop a).getLast? = l.getLast? := by
  conv_rhs => rw [← List.take_append_drop a l]
  rw [List.getLast?_append]
  cases hx : (l.drop a).getLast? with
  | none =>
    rw [List.getLast?_eq_none_iff, List.drop_eq_nil_iff] at hx
    omega
  | some c => rfl

/-! ### Bounds for the sentence-boundary search -/

theorem sentEndsGo_le :
    ∀ (l : List Char) (st : SEState) (pos : Nat),
      ∀ x ∈ sentEndsGo st pos l, x ≤ pos + l.length := by
  intro l
  induction l with
  | nil =>
    intro st pos x hx
    unfold sentEndsGo at hx
    split at hx
    · simp at hx
      omega
    · simp at hx
  | cons c rest ih =>
    intro st pos x hx
    unfold sentEndsGo at hx
    match st with
    | SEState.plain =>
      simp only at hx
      split at hx <;>
        · have := ih _ _ x hx
          simp
          omega
    | SEState.punct =>
      simp only at hx
      split at hx
      · have := ih _ _ x hx
        simp
        omega
      · split at hx <;>
          · have := ih _ _ x hx
            simp
            omega
    | SEState.ws =>
      simp only at hx
      split at hx
      · have := ih _ _ x hx
        simp
        omega
      · split at hx <;>
        · rcases List.mem_cons.mp hx with h | h
          · simp
            omega
          · have := ih _ _ x h
            simp
            omega

theorem findSentenceBoundary_else {t : List Char} {s e : Nat}
    (h1 : s < e) (h2 : s < t.length) :
    findSentenceBoundary t s e =
      match ((sentEndsGo SEState.plain 0 ((t.drop s).take (min e t.length - s))).map
          (s + ·)).getLast? with
      | some x => x
      | none => min e t.length := by
  unfold findSentenceBoundary
  rw [if_neg (by push_neg; omega)]

theorem findSentenceBoundary_le (t : List Char) (s e : Nat) :
    findSentenceBoundary t s e ≤ e := by
  by_cases h : s ≥ e ∨ s ≥ t.length
  · unfold findSentenceBoundary
    rw [if_pos h]
  · push_neg at h
    rw [findSentenceBoundary_else h.1 h.2]
    cases hx : ((sentEndsGo SEState.plain 0 ((t.drop s).take (min e t.length - s))).map
        (s + ·)).getLast? with
    | some x =>
      have hmem := List.mem_of_mem_getLast? hx
      rw [List.mem_map] at hmem
      obtain ⟨y, hy, rfl⟩ := hmem
      have h1 := sentEndsGo_le _ _ _ y hy
      have h4 : ((t.drop s).take (min e t.length - s)).length ≤ min e t.length - s := by
        rw [List.length_take]
        exact Nat.min_le_left _ _
      have h5 : min e t.length ≤ e := Nat.min_le_left _ _
      show s + y ≤ e
      omega
    | none =>
      simp

/-! ### Bounds and basic facts for the hard-split loop -/

theorem splitChunkEnd_eq (cs : Nat) (para : List Char) (start : Nat) :
    splitChunkEnd cs para start =
      if start + cs < para.length then
        (if start + cs <
            findSentenceBoundary para (start + cs) (min (start + cs + 200) para.length)
         then findSentenceBoundary para (start + cs) (min (start + cs + 200) para.length)
         else start + cs)
      else start + cs := rfl

theorem splitChunkEnd_ge (cs : Nat) (para : List Char) (start : Nat) :
    start + cs ≤ splitChunkEnd cs para start := by
  rw [splitChunkEnd_eq]
  split
  · split <;> omega
  · omega

theorem splitChunkEnd_le (cs : Nat) (para : List Char) (start : Nat) :
    splitChunkEnd cs para start ≤ start + cs + 200 := by
  rw [splitChunkEnd_eq]
  split
  · rename_i hlt
    have hb := findSentenceBoundary_le para (start + cs)
      (min (start + cs + 200) para.length)
    split
    · have : min (start + cs + 200) para.length ≤ start + cs + 200 := Nat.min_le_left _ _
      omega
    · omega
  · omega

theorem splitLargeGo_succ (cs ov : Nat) (para : List Char) (sp : Nat) (md : Meta)
    (fuel start cid : Nat) :
    splitLargeGo cs ov para sp md (fuel + 1) start cid =
      if start < para.length then
        (if strip ((para.drop start).take (splitChunkEnd cs para start - start)) ≠ [] then
          createChunk (strip ((para.drop start).take (splitChunkEnd cs para start - start)))
              cid (sp + start) (sp + splitChunkEnd cs para start) md ::
            splitLargeGo cs ov para sp md fuel (splitChunkEnd cs para start - ov) (cid + 1)
         else splitLargeGo cs ov para sp md fuel (splitChunkEnd cs para start - ov) cid)
      else [] := rfl

theorem splitLargeGo_of_ge {cs ov : Nat} {para : List Char} {sp : Nat} {md : Meta}
    {start : Nat} (h : para.length ≤ start) :
    ∀ fuel cid, splitLargeGo cs ov para sp md fuel start cid = [] := by
  intro fuel cid
  cases fuel with
  | zero => rfl
  | succ f =>
    rw [splitLargeGo_succ]
    rw [if_neg (by omega)]

/-- Every chunk produced by the hard-split loop has text length at most
`chunk_size + 200` (the bounded look-ahead slack). -/
theorem splitLargeGo_length_le {cs ov : Nat} {para : List Char} {sp : Nat}
    {md : Meta} :
    ∀ (fuel start cid : Nat) (c : Chunk),
      c ∈ splitLargeGo cs ov para sp md fuel start cid →
        c.chunk_length ≤ cs + 200 := by
  intro fuel
  induction fuel with
  | zero => intro start cid c hc; simp [splitLargeGo] at hc
  | succ f ih =>
    intro start cid c hc
    rw [splitLargeGo_succ] at hc
    split at hc
    · rename_i hlt
      split at hc
      · rcases List.mem_cons.mp hc with h | h
        · rw [h]
          show (strip _).length ≤ cs + 200
          calc (strip ((para.drop start).take (splitChunkEnd cs para start - start))).length
              ≤ ((para.drop start).take (splitChunkEnd cs para start - start)).length :=
                strip_length_le _
            _ ≤ splitChunkEnd cs para start - start := by
                rw [List.length_take]
                exact Nat.min_le_left _ _
            _ ≤ cs + 200 := by
                have := splitChunkEnd_le cs para start
                omega
        · exact ih _ _ c h
      · exact ih _ _ c hc
    · simp at hc

/-- One unit of extra fuel does not change the hard-split result once the
fuel covers the remaining length: with `ov < cs` every iteration advances
the cursor by at least `cs - ov ≥ 1`. -/
theorem splitLargeGo_fuel_stable {cs ov : Nat} {para : List Char} {sp : Nat}
    {md : Meta} (hov : ov < cs) :
    ∀ (fuel start cid : Nat), para.length ≤ start + fuel →
      splitLargeGo cs ov para sp md (fuel + 1) start cid =
        splitLargeGo cs ov para sp md fuel start cid := by
  intro fuel
  induction fuel with
  | zero =>
    intro start cid h
    show splitLargeGo cs ov para sp md 1 start cid = []
    exact splitLargeGo_of_ge (by omega) 1 cid
  | succ f ih =>
    intro start cid h
    by_cases hlt : start < para.length
    · have hadv : start + (cs - ov) ≤ splitChunkEnd cs para start - ov := by
        have := splitChunkEnd_ge cs para start
        omega
      conv_lhs => rw [splitLargeGo_succ]
      conv_rhs => rw [splitLargeGo_succ]
      rw [if_pos hlt, if_pos hlt]
      by_cases hemit :
          strip ((para.drop start).take (splitChunkEnd cs para start - start)) ≠ []
      · rw [if_pos hemit, if_pos hemit, ih _ _ (by omega)]
      · rw [if_neg hemit, if_neg hemit, ih _ _ (by omega)]
    · rw [splitLargeGo_of_ge (by omega) _ cid, splitLargeGo_of_ge (by omega) _ cid]

/-- Fuel sufficiency: any fuel at least the remaining length gives the
same hard-split result (the loop terminates within that many iterations). -/
theorem splitLargeGo_fuel_sufficient {cs ov : Nat} {para : List Char} {sp : Nat}
    {md : Meta} (hov : ov < cs) (fuel start cid : Nat)
    (h : para.length ≤ start + fuel) :
    ∀ k, splitLargeGo cs ov para sp md (fuel + k) start cid =
      splitLargeGo cs ov para sp md fuel start cid := by
  intro k
  induction k with
  | zero => rfl
  | succ j ih =>
    have : fuel + (j + 1) = (fuel + j) + 1 := by omega
    rw [this, splitLargeGo_fuel_stable hov _ _ _ (by omega), ih]

/-- The hard-split loop numbers its emitted chunks consecutively starting
at `start_chunk_id`. -/
theorem splitLargeGo_ids {cs ov : Nat} {para : List Char} {sp : Nat} {md : Meta} :
    ∀ (fuel start cid : Nat),
      (splitLargeGo cs ov para sp md fuel start cid).map Chunk.chunk_id =
        List.range' cid (splitLargeGo cs ov para sp md fuel start cid).length := by
  intro fuel
  induction fuel with
  | zero => intro start cid; rfl
  | succ f ih =>
    intro start cid
    rw [splitLargeGo_succ]
    split
    · split
      · rw [List.map_cons, ih _ _, List.length_cons, List.range'_succ]
        rfl
      · exact ih _ _
    · rfl

theorem splitLargeGo_start_bounds {cs ov : Nat} {para : List Char} {sp : Nat}
    {md : Meta} (hov : ov < cs) :
    ∀ (fuel start cid : Nat) (c : Chunk),
      c ∈ splitLargeGo cs ov para sp md fuel start cid →
        sp + start ≤ c.start_char ∧ c.start_char < sp + para.length := by
  intro fuel
  induction fuel with
  | zero => intro start cid c hc; simp [splitLargeGo] at hc
  | succ f ih =>
    intro start cid c hc
    rw [splitLargeGo_succ] at hc
    split at hc
    · rename_i hlt
      have hadv := splitChunkEnd_ge cs para start
      split at hc
      · rcases List.mem_cons.mp hc with h | h
        · rw [h]
          exact ⟨Nat.le_refl _, by show sp + start < sp + para.length; omega⟩
        · have := ih _ _ c h
          omega
      · have := ih _ _ c hc
        omega
    · simp at hc

theorem splitLargeGo_chain {cs ov : Nat} {para : List Char} {sp : Nat}
    {md : Meta} (hov : ov < cs) :
    ∀ (fuel start cid : Nat),
      List.Chain' (fun a b => a.start_char < b.start_char)
        (splitLargeGo cs ov para sp md fuel start cid) := by
  intro fuel
  induction fuel with
  | zero => intro start cid; exact List.chain'_nil
  | succ f ih =>
    intro start cid
    rw [splitLargeGo_succ]
    split
    · rename_i hlt
      split
      · rw [List.chain'_cons']
        refine ⟨?_, ih _ _⟩
        intro b hb
        have hmem : b ∈ splitLargeGo cs ov para sp md f
            (splitChunkEnd cs para start - ov) (cid + 1) :=
          List.mem_of_mem_head? hb
        have hb2 := (splitLargeGo_start_bounds hov _ _ _ b hmem).1
        have hadv := splitChunkEnd_ge cs para start
        show sp + start < b.start_char
        omega
      · exact ih _ _
    · exact List.chain'_nil

/-- Reconstruction of a single hard-split paragraph from the emitted
spans: the head chunk starts at `start`, and the tail spans (each with its
`ov`-character overlapping span removed) cover exactly the rest of the
paragraph.  Requires a paragraph with no two adjacent whitespace characters
and a non-whitespace last character, so no iteration's slice strips to
empty and no chunk is skipped. -/
theorem splitLargeGo_recon {cs ov : Nat} {para : List Char} {md : Meta}
    (hov : ov < cs) (hcs : 2 ≤ cs) (hws : noAdjWs para = true)
    (hlast : ∀ c ∈ para.getLast?, isWsChar c = false) :
    ∀ (fuel start cid : Nat), start < para.length → para.length ≤ start + fuel →
      ∃ c rest, splitLargeGo cs ov para 0 md fuel start cid = c :: rest ∧
        c.start_char = start ∧ c.end_char = splitChunkEnd cs para start ∧
        reconTail para ov rest =
          slice para (splitChunkEnd cs para start) para.length := by
  intro fuel
  induction fuel with
  | zero => intro start cid h1 h2; omega
  | succ f ih =>
    intro start cid h1 h2
    have hge := splitChunkEnd_ge cs para start
    have hemit : strip ((para.drop start).take (splitChunkEnd cs para start - start)) ≠ [] := by
      by_cases hcase : para.length ≤ splitChunkEnd cs para start
      · have heq : (para.drop start).take (splitChunkEnd cs para start - start) =
            para.drop start := by
          apply List.take_of_length_le
          rw [List.length_drop]
          omega
        rw [heq]
        have hne : para.drop start ≠ [] := by
          rw [Ne, List.drop_eq_nil_iff]
          omega
        cases hy : para.getLast? with
        | none =>
          rw [List.getLast?_eq_none_iff] at hy
          rw [hy] at h1
          simp at h1
        | some y =>
          have hyd : y ∈ (para.drop start).getLast? := by
            rw [getLast?_drop (by omega), hy]
            rfl
          exact strip_ne_nil_of_mem (List.mem_of_mem_getLast? hyd)
            (hlast y (by rw [hy]; rfl))
      · push_neg at hcase
        have hmid := slice_middle (l := para) (a := start)
          (b := splitChunkEnd cs para start) (by omega)
        have hwss : noAdjWs (slice para start (splitChunkEnd cs para start)) = true := by
          unfold noAdjWs
          unfold noAdjWs at hws
          rw [hmid] at hws
          exact okPairs_middle hws
        have hlen : 2 ≤ (slice para start (splitChunkEnd cs para start)).length := by
          unfold slice
          rw [List.length_take, List.length_drop]
          have : cs ≤ splitChunkEnd cs para start - start := by omega
          omega
        obtain ⟨x, hx, hxws⟩ := exists_not_ws_of_noAdjWs hwss hlen
        exact strip_ne_nil_of_mem hx hxws
    rw [splitLargeGo_succ, if_pos h1, if_pos hemit]
    refine ⟨_, _, rfl, by simp [createChunk], by simp [createChunk], ?_⟩
    by_cases hnext : splitChunkEnd cs para start - ov < para.length
    · obtain ⟨c2, rest2, hgo2, hst2, hend2, hrec2⟩ :=
        ih (splitChunkEnd cs para start - ov) (cid + 1) hnext (by omega)
      rw [hgo2]
      unfold reconTail
      rw [hst2, hend2, hrec2]
      have hsub : splitChunkEnd cs para start - ov + ov = splitChunkEnd cs para start := by
        omega
      rw [hsub]
      apply slice_glue
      have := splitChunkEnd_ge cs para (splitChunkEnd cs para start - ov)
      omega
    · rw [splitLargeGo_of_ge (by omega) f (cid + 1)]
      unfold reconTail
      rw [slice_eq_nil (by omega)]

/-! ### The accumulation invariant of `chunk_text` -/

theorem chunkStep_eq (cs ov : Nat) (md : Meta) (st : ChunkState) (para : List Char) :
    chunkStep cs ov md st para =
      if st.current_chunk.length + para.length > cs then
        (if strip st.current_chunk ≠ [] then
          ⟨st.chunks ++ [createChunk (strip st.current_chunk) st.chunk_id
              st.current_start (st.current_start + st.current_chunk.length) md],
            st.chunk_id + 1,
            overlapOf ov st.current_chunk ++ ' ' :: para,
            st.current_start + (overlapOf ov st.current_chunk ++ ' ' :: para).length -
              (overlapOf ov st.current_chunk).length - para.length⟩
         else if para.length > cs then
          ⟨st.chunks ++ splitLargeParagraph cs ov para st.current_start md st.chunk_id,
            st.chunk_id +
              (splitLargeParagraph cs ov para st.current_start md st.chunk_id).length,
            [], st.current_start + para.length⟩
         else ⟨st.chunks, st.chunk_id, para, st.current_start⟩)
      else if st.current_chunk ≠ [] then
        ⟨st.chunks, st.chunk_id, st.current_chunk ++ ' ' :: para, st.current_start⟩
      else ⟨st.chunks, st.chunk_id, para, st.current_start⟩ := rfl

/-- The cursor update on the accumulate-emit path always advances the
running start by exactly one (`current_start` is updated from the already
reassigned `current_chunk`, so the intended offset arithmetic cancels). -/
theorem newStart_eq (a : Nat) (ovt para : List Char) :
    a + (ovt ++ ' ' :: para).length - ovt.length - para.length = a + 1 := by
  rw [List.length_append, List.length_cons]
  omega

/-- Loop invariant of the paragraph fold in `chunk_text`: the chunk-id
counter equals the number of emitted chunks, ids are `0..N-1` in order,
start offsets are strictly increasing, and all of them lie strictly below
the running `current_start`. -/
def StInv (st : ChunkState) : Prop :=
  st.chunk_id = st.chunks.length ∧
  st.chunks.map Chunk.chunk_id = List.range st.chunks.length ∧
  List.Chain' (fun a b => a.start_char < b.start_char) st.chunks ∧
  ∀ c ∈ st.chunks, c.start_char < st.current_start

theorem range_append_range' (a b : Nat) :
    List.range a ++ List.range' a b = List.range (a + b) := by
  rw [List.range_eq_range', List.range_eq_range', Nat.add_comm a b,
    ← List.range'_append_1 0 a b]
  simp

theorem chunkStep_inv {cs ov : Nat} (hov : ov < cs) {md : Meta} {st : ChunkState}
    (hinv : StInv st) (para : List Char) : StInv (chunkStep cs ov md st para) := by
  obtain ⟨hid, hids, hchain, hlt⟩ := hinv
  rw [chunkStep_eq]
  split
  · split
    · -- emit the accumulated buffer, then seed with overlap + para
      refine ⟨?_, ?_, ?_, ?_⟩
      · show st.chunk_id + 1 = (st.chunks ++ [_]).length
        rw [List.length_append]
        simp [hid]
      · show (st.chunks ++ [_]).map Chunk.chunk_id = _
        rw [List.map_append, List.length_append, hids]
        simp [createChunk, hid, List.range_succ]
      · show List.Chain' _ (st.chunks ++ [_])
        apply List.Chain'.append hchain (List.chain'_singleton _)
        intro x hx y hy
        have hxm : x ∈ st.chunks := List.mem_of_mem_getLast? hx
        simp at hy
        rw [← hy]
        show x.start_char < st.current_start
        exact hlt x hxm
      · intro c hc
        show c.start_char < st.current_start + _ - _ - _
        rw [newStart_eq]
        rcases List.mem_append.mp hc with h | h
        · have := hlt c h
          omega
        · simp at h
          rw [h]
          show st.current_start < st.current_start + 1
          omega
    · split
      · -- hard split of an oversized paragraph
        rename_i hbig
        refine ⟨?_, ?_, ?_, ?_⟩
        · show st.chunk_id + _ = (st.chunks ++ _).length
          rw [List.length_append, hid]
        · show (st.chunks ++ _).map Chunk.chunk_id = _
          rw [List.map_append, List.length_append, hids, hid]
          unfold splitLargeParagraph
          rw [splitLargeGo_ids]
          exact range_append_range' _ _
        · show List.Chain' _ (st.chunks ++ _)
          apply List.Chain'.append hchain (splitLargeGo_chain hov _ _ _)
          intro x hx y hy
          have hxm : x ∈ st.chunks := List.mem_of_mem_getLast? hx
          have hym := List.mem_of_mem_head? hy
          have hyb := (splitLargeGo_start_bounds hov _ _ _ y hym).1
          have := hlt x hxm
          omega
        · intro c hc
          show c.start_char < st.current_start + para.length
          rcases List.mem_append.mp hc with h | h
          · have := hlt c h
            omega
          · have := (splitLargeGo_start_bounds hov _ _ _ c h).2
            omega
      · -- buffer is whitespace-only and the paragraph fits: replace buffer
        exact ⟨hid, hids, hchain, hlt⟩
  · split
    · exact ⟨hid, hids, hchain, hlt⟩
    · exact ⟨hid, hids, hchain, hlt⟩

theorem foldl_chunkStep_inv {cs ov : Nat} (hov : ov < cs) {md : Meta} :
    ∀ (paras : List (List Char)) (st : ChunkState), StInv st →
      StInv (paras.foldl (chunkStep cs ov md) st) := by
  intro paras
  induction paras with
  | nil => intro st h; exact h
  | cons p rest ih =>
    intro st h
    exact ih _ (chunkStep_inv hov h p)

theorem finalizeChunks_inv {md : Meta} {st : ChunkState} (hinv : StInv st) :
    (finalizeChunks md st).map Chunk.chunk_id =
      List.range (finalizeChunks md st).length ∧
    List.Chain' (fun a b => a.start_char < b.start_char) (finalizeChunks md st) := by
  obtain ⟨hid, hids, hchain, hlt⟩ := hinv
  unfold finalizeChunks
  split
  · constructor
    · rw [List.map_append, List.length_append, hids]
      simp [createChunk, hid, List.range_succ]
    · apply List.Chain'.append hchain (List.chain'_singleton _)
      intro x hx y hy
      have hxm : x ∈ st.chunks := List.mem_of_mem_getLast? hx
      simp at hy
      rw [← hy]
      show x.start_char < st.current_start
      exact hlt x hxm
  · exact ⟨hids, hchain⟩

theorem stInv_init : StInv ⟨[], 0, [], 0⟩ := by
  refine ⟨rfl, rfl, List.chain'_nil, ?_⟩
  intro c hc
  simp at hc

/-- For every text and metadata, the emitted `chunk_id`s are exactly
`0..N-1` in list order, and start offsets are strictly increasing. -/
theorem chunkText_ids_and_order {cs ov : Nat} (hov : ov < cs)
    (text : List Char) (md : Meta) :
    (chunkText cs ov text md).map Chunk.chunk_id =
      List.range (chunkText cs ov text md).length ∧
    List.Chain' (fun a b => a.start_char < b.start_char) (chunkText cs ov text md) := by
  unfold chunkText
  split
  · exact ⟨rfl, List.chain'_nil⟩
  · exact finalizeChunks_inv (foldl_chunkStep_inv hov _ _ stInv_init)

/-! ### Reconstruction for single-paragraph cleaned text -/

theorem strip_self_of_single_para {T : List Char}
    (hpara : splitIntoParagraphs T = [T]) : strip T = T := by
  have hmem : T ∈ splitIntoParagraphs T := by rw [hpara]; simp
  unfold splitIntoParagraphs at hmem
  rw [List.mem_filter] at hmem
  obtain ⟨hmem2, -⟩ := hmem
  rw [List.mem_map] at hmem2
  obtain ⟨p, -, hp⟩ := hmem2
  rw [← hp, strip_idem]

/-- Amended reconstruction property: when the cleaned text is a single
paragraph (the paragraph splitter returns it whole) with no two adjacent
whitespace characters, concatenating the chunks' `[start_char, end_char)`
spans — clamped slices, dropping the first `chunk_overlap` characters of
each non-first chunk — rebuilds the text exactly. -/
theorem chunkText_single_para_recon {cs ov : Nat} (hov : ov < cs) (hcs : 2 ≤ cs)
    {T : List Char} (md : Meta) (hne : T ≠ [])
    (hclean : cleanText T = T) (hpara : splitIntoParagraphs T = [T])
    (hws : noAdjWs T = true) :
    reconstruct T ov (chunkText cs ov T md) = T := by
  have hstrip : strip T = T := strip_self_of_single_para hpara
  have hlast : ∀ c ∈ T.getLast?, isWsChar c = false := by
    rw [← hstrip]
    exact strip_last_not_ws
  have hlenpos : 0 < T.length := List.length_pos.mpr hne
  have hnilstrip : ¬(strip ([] : List Char) ≠ []) := by decide
  unfold chunkText
  rw [if_neg hne, hclean, hpara, List.foldl_cons, List.foldl_nil, chunkStep_eq]
  by_cases hbig : (⟨[], 0, [], 0⟩ : ChunkState).current_chunk.length + T.length > cs
  · rw [if_pos hbig, if_neg hnilstrip,
      if_pos (show T.length > cs by simpa using hbig)]
    unfold finalizeChunks
    rw [if_neg hnilstrip]
    show reconstruct T ov ([] ++ splitLargeParagraph cs ov T 0 md 0) = T
    rw [List.nil_append]
    unfold splitLargeParagraph
    obtain ⟨c, rest, hgo, hst, hend, hrec⟩ :=
      splitLargeGo_recon hov hcs hws hlast T.length 0 0 hlenpos (by omega)
    rw [hgo]
    show slice T c.start_char c.end_char ++ reconTail T ov rest = T
    rw [hst, hend, hrec, slice_glue (by omega), slice_zero_length]
  · rw [if_neg hbig, if_neg (by decide)]
    unfold finalizeChunks
    rw [if_pos (show strip (⟨[], 0, T, 0⟩ : ChunkState).current_chunk ≠ [] by
      show strip T ≠ []
      rw [hstrip]
      exact hne)]
    show reconstruct T ov ([] ++ [createChunk (strip T) 0 0 (0 + T.length) md]) = T
    rw [List.nil_append]
    show slice T 0 (0 + T.length) ++ ([] : List Char) = T
    rw [List.append_nil, Nat.zero_add, slice_zero_length]

/-! ### Lemmas about the vector index model (upsert, batching) -/

theorem upsertOne_ids_superset {idx : List Vec} {v : Vec} {x : List Char}
    (h : x ∈ idx.map Vec.id) : x ∈ (upsertOne idx v).map Vec.id := by
  unfold upsertOne
  split
  · rw [List.mem_map] at h
    obtain ⟨e, he, rfl⟩ := h
    rw [List.map_map, List.mem_map]
    refine ⟨e, he, ?_⟩
    simp only [Function.comp_apply]
    by_cases hid : e.id = v.id
    · rw [if_pos hid, hid]
    · rw [if_neg hid]
  · rw [List.map_append, List.mem_append]
    exact Or.inl h

theorem upsertOne_self_mem (idx : List Vec) (v : Vec) :
    v.id ∈ (upsertOne idx v).map Vec.id := by
  unfold upsertOne
  split
  · rename_i hany
    rw [List.any_eq_true] at hany
    obtain ⟨e, he, heq⟩ := hany
    rw [decide_eq_true_eq] at heq
    rw [List.map_map, List.mem_map]
    refine ⟨e, he, ?_⟩
    simp only [Function.comp_apply]
    rw [if_pos heq]
  · rw [List.map_append, List.mem_append]
    right
    simp

theorem upsertOne_length_of_mem {idx : List Vec} {v : Vec}
    (h : v.id ∈ idx.map Vec.id) : (upsertOne idx v).length = idx.length := by
  unfold upsertOne
  rw [if_pos]
  · exact List.length_map _ _
  · rw [List.mem_map] at h
    obtain ⟨e, he, heq⟩ := h
    rw [List.any_eq_true]
    exact ⟨e, he, by rw [decide_eq_true_eq]; exact heq⟩

theorem upsertBatch_ids_superset {vs : List Vec} :
    ∀ {idx : List Vec} {x : List Char}, x ∈ idx.map Vec.id →
      x ∈ (upsertBatch idx vs).map Vec.id := by
  induction vs with
  | nil => intro idx x h; exact h
  | cons v rest ih =>
    intro idx x h
    exact ih (upsertOne_ids_superset h)

theorem upsertBatch_mem_all {vs : List Vec} :
    ∀ {idx : List Vec} (v : Vec), v ∈ vs → v.id ∈ (upsertBatch idx vs).map Vec.id := by
  induction vs with
  | nil => intro idx v h; simp at h
  | cons w rest ih =>
    intro idx v h
    rcases List.mem_cons.mp h with h | h
    · rw [h]
      show w.id ∈ (upsertBatch (upsertOne idx w) rest).map Vec.id
      exact upsertBatch_ids_superset (upsertOne_self_mem idx w)
    · exact ih v h

theorem upsertBatch_length_of_all_mem {vs : List Vec} :
    ∀ {idx : List Vec}, (∀ v ∈ vs, v.id ∈ idx.map Vec.id) →
      (upsertBatch idx vs).length = idx.length := by
  induction vs with
  | nil => intro idx _; rfl
  | cons v rest ih =>
    intro idx h
    show (upsertBatch (upsertOne idx v) rest).length = idx.length
    rw [ih (fun w hw => upsertOne_ids_superset (h w (by simp [hw])))]
    exact upsertOne_length_of_mem (h v (by simp))

theorem batchesOf_foldl {n : Nat} (hn : 0 < n) :
    ∀ (fuel : Nat) (vs idx : List Vec), vs.length < fuel →
      (batchesOf n fuel vs).foldl upsertBatch idx = upsertBatch idx vs := by
  intro fuel
  induction fuel with
  | zero => intro vs idx h; omega
  | succ f ih =>
    intro vs idx h
    cases vs with
    | nil => rfl
    | cons v rest =>
      show ((v :: rest).take n :: batchesOf n f ((v :: rest).drop n)).foldl
        upsertBatch idx = upsertBatch idx (v :: rest)
      rw [List.foldl_cons]
      rw [ih _ _ (by
        rw [List.length_drop]
        simp at h ⊢
        omega)]
      show upsertBatch (upsertBatch idx ((v :: rest).take n)) ((v :: rest).drop n) =
        upsertBatch idx (v :: rest)
      unfold upsertBatch
      rw [← List.foldl_append]
      rw [List.take_append_drop]

/-- The net index state produced by `store_document_chunks`. -/
theorem store_index_eq
    (embedBatch : List (List Char) → Except (List Char) (List (List ℚ)))
    (chunks : List Chunk) (u : List Char) (d : Option (List Char)) (t : Nat)
    (idx : List Vec) :
    (storeDocumentChunks embedBatch chunks u d t idx).index =
      if chunks = [] then idx
      else
        match embedBatch (chunks.map Chunk.text) with
        | .error _ => idx
        | .ok embs => upsertBatch idx (buildVectors u d t chunks embs) := by
  unfold storeDocumentChunks
  split
  · rfl
  · cases hemb : embedBatch (chunks.map Chunk.text) with
    | error e => rfl
    | ok embs =>
      show (batchesOf 100 ((buildVectors u d t chunks embs).length + 1)
          (buildVectors u d t chunks embs)).foldl upsertBatch idx = _
      exact batchesOf_foldl (by omega) _ _ _ (by omega)

/-- Re-ingesting the same chunks with the same user, document and
timestamp produces identical vector ids, so the second pass only
overwrites and the index size does not change. -/
theorem store_reingest_total_eq
    (embedBatch : List (List Char) → Except (List Char) (List (List ℚ)))
    (chunks : List Chunk) (u : List Char) (d : Option (List Char)) (t : Nat)
    (idx : List Vec) :
    totalVectors (storeDocumentChunks embedBatch chunks u d t
        (storeDocumentChunks embedBatch chunks u d t idx).index).index =
      totalVectors (storeDocumentChunks embedBatch chunks u d t idx).index := by
  unfold totalVectors
  rw [store_index_eq embedBatch chunks u d t
    (storeDocumentChunks embedBatch chunks u d t idx).index]
  by_cases hc : chunks = []
  · rw [if_pos hc]
  · rw [if_neg hc]
    cases hemb : embedBatch (chunks.map Chunk.text) with
    | error e => rfl
    | ok embs =>
      rw [store_index_eq embedBatch chunks u d t idx, if_neg hc, hemb]
      exact upsertBatch_length_of_all_mem (fun v hv => upsertBatch_mem_all v hv)

/-! ### Concrete computation lemmas for the oversized-merge counterexample -/

theorem collapseNlGo_no_nl {s : List Char} (h : '\n' ∉ s) :
    ∀ k, k ≤ 2 → collapseNlGo k s = List.replicate k '\n' ++ s := by
  induction s with
  | nil =>
    intro k hk
    show emitNl k = _
    unfold emitNl
    rw [if_neg (by omega)]
    simp
  | cons c rest ih =>
    intro k hk
    unfold collapseNlGo
    rw [if_neg (fun hc => h (by simp [hc]))]
    rw [ih (fun hm => h (by simp [hm])) 0 (by omega)]
    unfold emitNl
    rw [if_neg (by omega)]
    simp

theorem collapseSpGo_no_sp {s : List Char} (h : ' ' ∉ s) :
    collapseSpGo 0 s = s := by
  induction s with
  | nil => rfl
  | cons c rest ih =>
    unfold collapseSpGo
    rw [if_neg (fun hc => h (by simp [hc]))]
    rw [ih (fun hm => h (by simp [hm]))]
    rfl

theorem splitParasGo_no_nl {s : List Char} (h : '\n' ∉ s) :
    ∀ fuel, s.length < fuel → splitParasGo fuel s = [s] := by
  induction s with
  | nil =>
    intro fuel hf
    match fuel, hf with
    | f + 1, _ => rfl
  | cons c rest ih =>
    intro fuel hf
    match fuel, hf with
    | f + 1, hf2 =>
      show splitParasGo (f + 1) (c :: rest) = [c :: rest]
      unfold splitParasGo
      rw [if_neg (fun hc => h (by simp [hc]))]
      rw [ih (fun hm => h (by simp [hm])) f (by simp at hf2; omega)]

theorem nl_not_mem_replicate_b (n : Nat) : '\n' ∉ List.replicate n 'b' := by
  intro h
  rw [List.mem_replicate] at h
  exact absurd h.2 (by decide)

theorem sp_not_mem_T6 (n : Nat) : ' ' ∉ 'a' :: '\n' :: '\n' :: List.replicate n 'b' := by
  intro h
  rcases List.mem_cons.mp h with h | h
  · exact absurd h (by decide)
  rcases List.mem_cons.mp h with h | h
  · exact absurd h (by decide)
  rcases List.mem_cons.mp h with h | h
  · exact absurd h (by decide)
  · rw [List.mem_replicate] at h
    exact absurd h.2 (by decide)

theorem head?_replicate_pos {n : Nat} {a : Char} (h : 0 < n) :
    (List.replicate n a).head? = some a := by
  match n, h with
  | m + 1, _ => rw [List.replicate_succ]; rfl

theorem getLast?_replicate_pos {n : Nat} {a : Char} (h : 0 < n) :
    (List.replicate n a).getLast? = some a := by
  rw [List.getLast?_eq_head?_reverse, List.reverse_replicate]
  exact head?_replicate_pos h

theorem strip_replicate_b (n : Nat) :
    strip (List.replicate n 'b') = List.replicate n 'b' := by
  apply strip_eq_self
  · intro c hc
    cases n with
    | zero => simp at hc
    | succ m =>
      rw [head?_replicate_pos (by omega)] at hc
      rw [Option.mem_def] at hc
      injection hc with h2
      rw [← h2]
      rfl
  · intro c hc
    cases n with
    | zero => simp at hc
    | succ m =>
      rw [getLast?_replicate_pos (by omega)] at hc
      rw [Option.mem_def] at hc
      injection hc with h2
      rw [← h2]
      rfl

theorem replicate_b_ne_nil : List.replicate 1700 'b' ≠ [] := by
  intro hnil
  have h2 := congrArg List.length hnil
  rw [List.length_replicate, List.length_nil] at h2
  exact absurd h2 (by decide)

theorem cleanText_T6 :
    cleanText ('a' :: '\n' :: '\n' :: List.replicate 1700 'b') =
      'a' :: '\n' :: '\n' :: List.replicate 1700 'b' := by
  have h1 : collapseNewlines ('a' :: '\n' :: '\n' :: List.replicate 1700 'b') =
      'a' :: '\n' :: '\n' :: List.replicate 1700 'b' := by
    unfold collapseNewlines
    rw [collapseNlGo, if_neg (by decide), collapseNlGo, if_pos (by decide),
      collapseNlGo, if_pos (by decide),
      collapseNlGo_no_nl (nl_not_mem_replicate_b 1700) 2 (by omega)]
    have h2 : List.replicate 2 '\n' = ['\n', '\n'] := by decide
    rw [h2]
    rfl
  have h3 : collapseSpaces ('a' :: '\n' :: '\n' :: List.replicate 1700 'b') =
      'a' :: '\n' :: '\n' :: List.replicate 1700 'b' := by
    unfold collapseSpaces
    exact collapseSpGo_no_sp (sp_not_mem_T6 1700)
  have h4 : splitNl ('a' :: '\n' :: '\n' :: List.replicate 1700 'b') =
      [['a'], [], List.replicate 1700 'b'] := by
    rw [splitNl, if_neg (by decide), splitNl, if_pos (by decide),
      splitNl, if_pos (by decide), splitNl_of_no_nl (nl_not_mem_replicate_b 1700)]
  unfold cleanText
  rw [h1, h3, h4]
  rw [List.map_cons, List.map_cons, List.map_cons, List.map_nil, strip_replicate_b]
  have hsa : strip ['a'] = ['a'] := by decide
  have hsn : strip ([] : List Char) = [] := by decide
  rw [hsa, hsn]
  rfl

theorem splitIntoParagraphs_T6 :
    splitIntoParagraphs ('a' :: '\n' :: '\n' :: List.replicate 1700 'b') =
      [['a'], List.replicate 1700 'b'] := by
  unfold splitIntoParagraphs
  have hlen : ('a' :: '\n' :: '\n' :: List.replicate 1700 'b').length + 1 =
      1702 + 1 + 1 := by
    rw [List.length_cons, List.length_cons, List.length_cons, List.length_replicate]
  rw [hlen]
  have hdw : (List.replicate 1700 'b').dropWhile (· = '\n') = List.replicate 1700 'b' := by
    apply dropWhile_eq_self_of_head
    intro c hc
    rw [head?_replicate_pos (by omega)] at hc
    rw [Option.mem_def] at hc
    injection hc with h2
    rw [← h2]
    rfl
  rw [splitParasGo, if_neg (by decide), splitParasGo, if_pos (by decide), hdw,
    splitParasGo_no_nl (nl_not_mem_replicate_b 1700) 1702
      (by rw [List.length_replicate]; omega)]
  rw [List.map_cons, List.map_cons, List.map_nil, strip_replicate_b]
  have hsa : strip ['a'] = ['a'] := by decide
  rw [hsa]
  rw [List.filter_eq_self.mpr]
  intro a ha
  rcases List.mem_cons.mp ha with h | h
  · rw [h]
    decide
  · rw [List.mem_singleton] at h
    rw [h, decide_eq_true_eq]
    exact replicate_b_ne_nil

theorem strip_T6buf :
    strip ('a' :: ' ' :: List.replicate 1700 'b') =
      'a' :: ' ' :: List.replicate 1700 'b' := by
  apply strip_eq_self
  · intro c hc
    rw [Option.mem_def, List.head?_cons] at hc
    injection hc with h2
    rw [← h2]
    rfl
  · intro c hc
    rw [Option.mem_def] at hc
    have hgl : ('a' :: ' ' :: List.replicate 1700 'b').getLast? = some 'b' := by
      show ((['a', ' '] : List Char) ++ List.replicate 1700 'b').getLast? = some 'b'
      rw [List.getLast?_append, getLast?_replicate_pos (by omega)]
      rfl
    rw [hgl] at hc
    injection hc with h2
    rw [← h2]
    rfl

set_option maxRecDepth 100000 in
/-- A long paragraph merged into a non-empty buffer is emitted whole: the
second chunk holds the entire 1700-character paragraph plus the overlap
seed, 1702 characters — more than `chunk_size + 200`. -/
theorem chunkText_T6_lengths :
    (chunkText 1500 300 ('a' :: '\n' :: '\n' :: List.replicate 1700 'b')
        ⟨[], none, none, 0⟩).map Chunk.chunk_length = [1, 1702] := by
  unfold chunkText
  rw [if_neg (List.cons_ne_nil _ _), cleanText_T6, splitIntoParagraphs_T6]
  decide

/-! ### Claims -/

/-- Claim C1 (counterexample): the claim says that for any cleaned text
`T`, concatenating all chunks' `[start_char, end_char)` spans with the
overlapping prefix of each non-first chunk removed reconstructs `T`
exactly.  For the cleaned two-paragraph text `"a\n\nb"`, `chunk_text`
yields a single chunk spanning `[0, 3)`, whose span of `T` is `"a\n\n"`,
not `T`: the offsets track the single-space paragraph join, not positions
in `T`. -/
theorem C1_counterexample :
    cleanText ('a' :: '\n' :: '\n' :: ['b']) = 'a' :: '\n' :: '\n' :: ['b'] ∧
    reconstruct ('a' :: '\n' :: '\n' :: ['b']) 300
        (chunkText 1500 300 ('a' :: '\n' :: '\n' :: ['b']) ⟨[], none, none, 0⟩) ≠
      'a' :: '\n' :: '\n' :: ['b'] := by
  constructor
  · decide
  · decide

/-- Claim C1 (amended): for cleaned text that the paragraph splitter
returns whole as a single paragraph and that has no two adjacent
whitespace characters, concatenating the chunks' `[start_char, end_char)`
spans (clamped slices), dropping the first `chunk_overlap` characters of
each non-first chunk's span, reconstructs the text exactly; for
multi-paragraph cleaned text the offsets do not track positions in the
text and reconstruction fails. -/
theorem C1_single_paragraph_reconstruction (cs ov : Nat) (hov : ov < cs)
    (hcs : 2 ≤ cs) (T : List Char) (md : Meta) (hne : T ≠ [])
    (hclean : cleanText T = T) (hpara : splitIntoParagraphs T = [T])
    (hws : noAdjWs T = true) :
    reconstruct T ov (chunkText cs ov T md) = T :=
  chunkText_single_para_recon hov hcs md hne hclean hpara hws

/-- Witness for C1 (amended) at the configured sizes on the cleaned
single-paragraph text `"abc"`. -/
theorem C1_single_paragraph_reconstruction_witness :
    ((300 : Nat) < 1500 ∧ (2 : Nat) ≤ 1500 ∧ "abc".toList ≠ [] ∧
      cleanText "abc".toList = "abc".toList ∧
      splitIntoParagraphs "abc".toList = ["abc".toList] ∧
      noAdjWs "abc".toList = true) ∧
    reconstruct "abc".toList 300
      (chunkText 1500 300 "abc".toList ⟨[], none, none, 0⟩) = "abc".toList :=
  ⟨⟨by decide, by decide, by decide, by decide, by decide, by decide⟩,
    C1_single_paragraph_reconstruction 1500 300 (by decide) (by decide) "abc".toList
      ⟨[], none, none, 0⟩ (by decide) (by decide) (by decide) (by decide)⟩

/-- Claim C2 (counterexample): the claim says every query and delete
against the vector store carries an equality filter on the owner
(`user_id`).  The `get_document_content` endpoint (`main.py` lines
807-811) queries via `search_by_filter` with
`filter_dict={"document_id": document_id}` — no `user_id` key. -/
theorem C2_counterexample :
    hasUserIdFilter (getDocumentContentFilter ("doc-1".toList)) = false := by
  decide

/-- Claim C2 (amended): `search_similar` and `delete_document` always
carry a `user_id` equality filter, but the `search_by_filter` call issued
by `get_document_content` filters only on `document_id` (owner checking is
delegated to the relational store's row-level security before the vector
query). -/
theorem C2_owner_filters (u d : List Char) :
    hasUserIdFilter (searchSimilarQueryFilter u) = true ∧
    hasUserIdFilter (deleteDocumentFilter d u) = true := by
  constructor
  · unfold hasUserIdFilter searchSimilarQueryFilter
    simp
  · unfold hasUserIdFilter deleteDocumentFilter
    simp

/-- Claim C3 (counterexample): the claim says any embedding or store
failure inside `search_similar` surfaces to the caller.  With a failing
embedding oracle the `try` body fails, yet `search_similar` returns the
normal empty result `.ok []` (the `except` handler returns `[]`), not an
error. -/
theorem C3_counterexample :
    searchSimilarTry (fun _ => Except.error "boom".toList)
        (fun _ _ _ => Except.ok []) "q".toList "user-1".toList 10 (3 / 10) =
      Except.error "boom".toList ∧
    searchSimilar (fun _ => Except.error "boom".toList)
        (fun _ _ _ => Except.ok []) "q".toList "user-1".toList 10 (3 / 10) =
      Except.ok [] := by
  constructor
  · rfl
  · rfl

/-- Claim C3 (amended): when the embedding call or the store query inside
`search_similar` fails, the exception is caught and `search_similar`
returns an empty list as a normal result, indistinguishable from a query
with no matches; the failure does not surface to the caller. -/
theorem C3_swallowed_failure
    (embed : List Char → Except (List Char) (List ℚ))
    (indexQuery : List ℚ → Nat → List (List Char × List Char) →
      Except (List Char) (List RawMatch))
    (q u : List Char) (k : Nat) (ms : ℚ) (e : List Char)
    (h : searchSimilarTry embed indexQuery q u k ms = Except.error e) :
    searchSimilar embed indexQuery q u k ms = Except.ok [] := by
  unfold searchSimilar
  rw [h]

/-- Witness for C3 (amended) with a concrete failing embedding oracle. -/
theorem C3_swallowed_failure_witness :
    searchSimilarTry (fun _ => Except.error "x".toList) (fun _ _ _ => Except.ok [])
        "q".toList "u".toList 5 (1 / 2) = Except.error "x".toList ∧
    searchSimilar (fun _ => Except.error "x".toList) (fun _ _ _ => Except.ok [])
        "q".toList "u".toList 5 (1 / 2) = Except.ok [] :=
  ⟨rfl, C3_swallowed_failure _ _ _ _ _ _ _ rfl⟩

/-- Claim C5: for every text, the `chunk_id` fields of the chunk list
returned by `chunk_text` are exactly `0..N-1` with no gaps or repeats, and
the chunks appear in strictly ascending `start_char` order. -/
theorem C5_chunk_ids_and_order (cs ov : Nat) (hov : ov < cs)
    (text : List Char) (md : Meta) :
    (chunkText cs ov text md).map Chunk.chunk_id =
      List.range (chunkText cs ov text md).length ∧
    List.Chain' (fun a b => a.start_char < b.start_char) (chunkText cs ov text md) :=
  chunkText_ids_and_order hov text md

/-- Witness for C5 at the configured sizes on a small text. -/
theorem C5_chunk_ids_and_order_witness :
    (300 : Nat) < 1500 ∧
    ((chunkText 1500 300 "hi there".toList ⟨[], none, none, 0⟩).map Chunk.chunk_id =
        List.range (chunkText 1500 300 "hi there".toList ⟨[], none, none, 0⟩).length ∧
      List.Chain' (fun a b => a.start_char < b.start_char)
        (chunkText 1500 300 "hi there".toList ⟨[], none, none, 0⟩)) :=
  ⟨by decide, C5_chunk_ids_and_order 1500 300 (by decide) "hi there".toList
    ⟨[], none, none, 0⟩⟩

set_option maxRecDepth 10000 in
/-- Claim C4 (counterexample): the claim says every returned match's final
score is the raw similarity adjusted by an `overlap_ratio × 0.1` lexical
bonus capped at 1.0.  For a store match with raw score `1/2` whose text
equals the query `"contract"` (overlap ratio 1), the claimed adjusted
score is `3/5`, but `search_similar` returns the raw `1/2` unchanged: no
re-ranking exists in the code. -/
theorem C4_counterexample :
    searchSimilar (fun _ => Except.ok [1])
        (fun _ _ _ => Except.ok
          [⟨"v1".toList, mkRat 1 2,
            ⟨"u".toList, "d".toList, "f".toList, none, none, 0,
              "contract".toList, none, 0, 0⟩⟩])
        "contract".toList "u".toList 10 (mkRat 3 10) =
      Except.ok
        [⟨"v1".toList, mkRat 1 2, "contract".toList, "f".toList, none, none, 0,
          "d".toList, none⟩] ∧
    specAdjustedScore (mkRat 1 2) "contract".toList "contract".toList = mkRat 3 5 ∧
    mkRat 1 2 ≠ mkRat 3 5 := by
  refine ⟨?_, ?_, ?_⟩
  · rfl
  · have hw : specWords "contract".toList = ["contract".toList] := by decide
    have hr : specOverlapRatio "contract".toList "contract".toList = 1 := by
      unfold specOverlapRatio
      rw [hw]
      rw [if_neg (by simp)]
      have hf : (["contract".toList].filter (fun w => w ∈ ["contract".toList])) =
          ["contract".toList] := by decide
      rw [hf]
      simp
    unfold specAdjustedScore
    rw [hr, Rat.mkRat_eq_div, Rat.mkRat_eq_div]
    norm_num
  · decide

/-- Claim C4 (amended): `search_similar` returns each surviving match's
raw similarity score unchanged — every returned score is one of the
store's scores and is at least `min_score`; no lexical-overlap bonus is
applied. -/
theorem C4_scores_unchanged
    (embed : List Char → Except (List Char) (List ℚ))
    (indexQuery : List ℚ → Nat → List (List Char × List Char) →
      Except (List Char) (List RawMatch))
    (q u : List Char) (k : Nat) (ms : ℚ) (emb : List ℚ) (raw : List RawMatch)
    (hemb : embed q = Except.ok emb)
    (hq : indexQuery emb k (searchSimilarQueryFilter u) = Except.ok raw) :
    searchSimilar embed indexQuery q u k ms =
      Except.ok ((raw.filter (fun m => ms ≤ m.score)).map formatMatch) ∧
    ∀ fm ∈ (raw.filter (fun m => ms ≤ m.score)).map formatMatch,
      ms ≤ fm.score ∧ fm.score ∈ raw.map RawMatch.score := by
  constructor
  · unfold searchSimilar searchSimilarTry
    simp only [hemb, hq]
  · intro fm hfm
    rw [List.mem_map] at hfm
    obtain ⟨m, hm, rfl⟩ := hfm
    rw [List.mem_filter] at hm
    obtain ⟨hmem, hsc⟩ := hm
    rw [decide_eq_true_eq] at hsc
    exact ⟨hsc, by rw [List.mem_map]; exact ⟨m, hmem, rfl⟩⟩

/-- Witness for C4 (amended) with concrete oracles and one match. -/
theorem C4_scores_unchanged_witness :
    ((fun _ : List Char => (Except.ok [1] : Except (List Char) (List ℚ)))
        "contract".toList = Except.ok [1] ∧
      (fun _ : List ℚ => fun _ : Nat => fun _ : List (List Char × List Char) =>
          (Except.ok [⟨"v1".toList, mkRat 1 2,
            ⟨"u".toList, "d".toList, "f".toList, none, none, 0, "c".toList,
              none, 0, 0⟩⟩] : Except (List Char) (List RawMatch)))
        [1] 10 (searchSimilarQueryFilter "u".toList) =
        Except.ok [⟨"v1".toList, mkRat 1 2,
          ⟨"u".toList, "d".toList, "f".toList, none, none, 0, "c".toList,
            none, 0, 0⟩⟩]) ∧
    (searchSimilar (fun _ => Except.ok [1])
        (fun _ _ _ => Except.ok [⟨"v1".toList, mkRat 1 2,
          ⟨"u".toList, "d".toList, "f".toList, none, none, 0, "c".toList,
            none, 0, 0⟩⟩])
        "contract".toList "u".toList 10 (mkRat 3 10) =
      Except.ok (([⟨"v1".toList, mkRat 1 2,
          ⟨"u".toList, "d".toList, "f".toList, none, none, 0, "c".toList,
            none, 0, 0⟩⟩].filter
          (fun m => mkRat 3 10 ≤ m.score)).map formatMatch) ∧
      ∀ fm ∈ ([⟨"v1".toList, mkRat 1 2,
          ⟨"u".toList, "d".toList, "f".toList, none, none, 0, "c".toList,
            none, 0, 0⟩⟩].filter
          (fun m => mkRat 3 10 ≤ m.score)).map formatMatch,
        mkRat 3 10 ≤ fm.score ∧
        fm.score ∈ [⟨"v1".toList, mkRat 1 2,
          ⟨"u".toList, "d".toList, "f".toList, none, none, 0, "c".toList,
            none, 0, 0⟩⟩].map RawMatch.score) :=
  ⟨⟨rfl, rfl⟩, C4_scores_unchanged _ _ "contract".toList "u".toList 10 (mkRat 3 10)
    [1] _ rfl rfl⟩

/-- Claim C6 (counterexample): the claim says every paragraph longer than
`chunk_size` is split via `_split_large_paragraph` into sub-chunks of at
most `chunk_size + 200` characters.  A 1700-character paragraph arriving
while the buffer holds a previous paragraph is instead merged with the
overlap seed and emitted whole: the second chunk has 1702 > 1500 + 200
characters and the hard-split subroutine is never reached. -/
theorem C6_counterexample :
    (chunkText 1500 300 ('a' :: '\n' :: '\n' :: List.replicate 1700 'b')
        ⟨[], none, none, 0⟩).map Chunk.chunk_length = [1, 1702] ∧
    ¬(1702 ≤ 1500 + 200) :=
  ⟨chunkText_T6_lengths, by decide⟩

/-- Claim C6 (amended): every sub-chunk actually produced by the
hard-split subroutine `_split_large_paragraph` has text length at most
`chunk_size + 200`; a paragraph longer than `chunk_size` is hard-split
only when the accumulation buffer holds no non-whitespace text, otherwise
it is merged into the buffer and can be emitted as an oversized chunk. -/
theorem C6_subchunk_length_bound (cs ov : Nat) (para : List Char) (sp : Nat)
    (md : Meta) (fuel start cid : Nat) (c : Chunk)
    (hc : c ∈ splitLargeGo cs ov para sp md fuel start cid) :
    c.chunk_length ≤ cs + 200 :=
  splitLargeGo_length_le fuel start cid c hc

/-- Witness for C6 (amended) on a concrete small hard split. -/
theorem C6_subchunk_length_bound_witness :
    ((⟨0, "abcdefgh".toList, 0, 8, 8, [], none, none, 0⟩ : Chunk) ∈
      splitLargeGo 5 1 "abcdefgh".toList 0 ⟨[], none, none, 0⟩ 8 0 0) ∧
    (⟨0, "abcdefgh".toList, 0, 8, 8, [], none, none, 0⟩ : Chunk).chunk_length ≤ 5 + 200 :=
  ⟨by decide, C6_subchunk_length_bound 5 1 "abcdefgh".toList 0 ⟨[], none, none, 0⟩
    8 0 0 _ (by decide)⟩

set_option maxRecDepth 10000 in
/-- Claim C7 (counterexample): the claim says re-ingesting the same
document produces the same vector ids, so `stats().total_vectors` does not
grow.  The id is the MD5 of a string that includes `int(time.time())`:
ingesting one identical chunk at epoch seconds 1000 and then 1001 yields
two distinct ids, and the vector count grows from 1 to 2. -/
theorem C7_counterexample :
    totalVectors (storeDocumentChunks (fun _ => Except.ok [[1]])
        [⟨0, "x".toList, 0, 1, 1, "f.pdf".toList, none, none, 0⟩] "u".toList none 1001
        (storeDocumentChunks (fun _ => Except.ok [[1]])
          [⟨0, "x".toList, 0, 1, 1, "f.pdf".toList, none, none, 0⟩] "u".toList none 1000
          []).index).index = 2 ∧
    totalVectors (storeDocumentChunks (fun _ => Except.ok [[1]])
        [⟨0, "x".toList, 0, 1, 1, "f.pdf".toList, none, none, 0⟩] "u".toList none 1000
        []).index = 1 ∧
    (2 : Nat) ≠ 1 := by
  refine ⟨?_, ?_, by decide⟩
  · decide
  · decide

/-- Claim C7 (amended): vector ids depend on user, filename, chunk index
and the ingestion timestamp; re-ingesting the same chunks at the same
epoch second reuses identical ids, so upsert overwrites in place and
`stats().total_vectors` does not grow relative to a single ingestion.
Re-ingestion at a different second mints fresh ids and duplicates
vectors. -/
theorem C7_same_time_idempotent
    (embedBatch : List (List Char) → Except (List Char) (List (List ℚ)))
    (chunks : List Chunk) (u : List Char) (d : Option (List Char)) (t : Nat)
    (idx : List Vec) :
    totalVectors (storeDocumentChunks embedBatch chunks u d t
        (storeDocumentChunks embedBatch chunks u d t idx).index).index =
      totalVectors (storeDocumentChunks embedBatch chunks u d t idx).index :=
  store_reingest_total_eq embedBatch chunks u d t idx

/-- Claim C8 (counterexample): the claim says the cleaner's output never
contains a run of three or more newlines.  On input `"a\n \n \nb"` the
newline collapsing finds no 3-newline run, but stripping the two
whitespace-only lines afterwards produces `"a\n\n\nb"`, which contains
one. -/
theorem C8_counterexample :
    cleanText ('a' :: '\n' :: ' ' :: '\n' :: ' ' :: '\n' :: ['b']) =
      'a' :: '\n' :: '\n' :: '\n' :: ['b'] ∧
    noTripleNl ('a' :: '\n' :: '\n' :: '\n' :: ['b']) = false := by
  constructor
  · decide
  · decide

/-- Claim C8 (amended): for every input, the cleaner's output contains no
run of two or more spaces and no line with leading or trailing whitespace;
newline runs of three or more in the input are collapsed, but whitespace-
only input lines can produce new 3-newline runs in the output, so that
part of the claim fails. -/
theorem C8_cleaner_output (s : List Char) :
    noDoubleSpace (cleanText s) = true ∧ linesStripped (cleanText s) = true :=
  ⟨cleanText_noDoubleSpace s, cleanText_linesStripped s⟩

/-- Claim C9: calling `store_document_chunks` with an empty chunk list
returns `{"success": False, "error": "No chunks to process"}`, makes no
embedding call and performs no upsert (the index is unchanged). -/
theorem C9_empty_chunks_rejected
    (embedBatch : List (List Char) → Except (List Char) (List (List ℚ)))
    (u : List Char) (d : Option (List Char)) (t : Nat) (idx : List Vec) :
    storeDocumentChunks embedBatch [] u d t idx =
      ⟨StoreResult.err ("No chunks to process".toList), 0, idx⟩ := rfl

/-- Claim C10: the hard-split loop of `_split_large_paragraph` terminates
whenever `chunk_overlap < chunk_size`: each iteration's cursor update
`end - chunk_overlap` advances by at least `chunk_size - chunk_overlap`
(strictly past the previous cursor), and fuel equal to the paragraph
length already reaches the fixed point (extra fuel changes nothing). -/
theorem C10_hard_split_terminates (cs ov : Nat) (hov : ov < cs)
    (para : List Char) (sp : Nat) (md : Meta) (start cid : Nat) :
    (start + (cs - ov) ≤ splitChunkEnd cs para start - ov ∧
      start < splitChunkEnd cs para start - ov) ∧
    ∀ k, splitLargeGo cs ov para sp md (para.length + k) 0 cid =
      splitLargeGo cs ov para sp md para.length 0 cid := by
  constructor
  · have := splitChunkEnd_ge cs para start
    constructor <;> omega
  · exact splitLargeGo_fuel_sufficient hov para.length 0 cid (by omega)

/-- Witness for C10 at the configured sizes on a concrete paragraph. -/
theorem C10_hard_split_terminates_witness :
    (300 : Nat) < 1500 ∧
    ((0 + (1500 - 300) ≤ splitChunkEnd 1500 "ab".toList 0 - 300 ∧
        0 < splitChunkEnd 1500 "ab".toList 0 - 300) ∧
      splitLargeGo 1500 300 "ab".toList 0 ⟨[], none, none, 0⟩
          ("ab".toList.length + 1) 0 0 =
        splitLargeGo 1500 300 "ab".toList 0 ⟨[], none, none, 0⟩
          "ab".toList.length 0 0) :=
  ⟨by decide,
    (C10_hard_split_terminates 1500 300 (by decide) "ab".toList 0
      ⟨[], none, none, 0⟩ 0 0).1,
    (C10_hard_split_terminates 1500 300 (by decide) "ab".toList 0
      ⟨[], none, none, 0⟩ 0 0).2 1⟩

end LexAI
